import Mathlib

/-!
Verification development for the csort class-member reordering tool.

The Python sources are shallowly embedded: class-body statements become the
inductive type `Member` (mirroring the lossless-CST backend node shapes that
the pipeline in `src/csort/formatting.py` manipulates), decorator identifiers
are the strings extracted by `src/csort/decorators.py`, and the sorting,
classification, auto-static and edge-case functions are translated
definition by definition.  Python `str` operations are modelled on the
underlying character lists.  Where a helper of the current package revision
is absent from the source tree, the definition is marked
`Modelled from the spec:` and follows the specification text.
-/

namespace Csort

/-- Single-quote character, kept out of string literals. -/
def sq : Char := Char.ofNat 39

/-- Boolean infix test on character lists. -/
def listIsInfixOf (needle : List Char) : List Char → Bool
  | [] => needle.isEmpty
  | c :: rest => needle.isPrefixOf (c :: rest) || listIsInfixOf needle rest

/-- Python `needle in hay` on strings: substring containment. -/
def pyContainsStr (hay needle : String) : Bool :=
  listIsInfixOf needle.data hay.data

/-- Python `s.startswith(pre)`. -/
def pyStartsWith (s pre : String) : Bool :=
  pre.data.isPrefixOf s.data

/-- Python `s.endswith(suf)`. -/
def pyEndsWith (s suf : String) : Bool :=
  suf.data.isSuffixOf s.data

/-- ASCII whitespace test used to model Python `str.strip`. -/
def isSpaceChar (c : Char) : Bool :=
  c = ' ' || c = Char.ofNat 9 || c = Char.ofNat 10 || c = Char.ofNat 13 || c = Char.ofNat 11 || c = Char.ofNat 12

/-- Python `s.strip()` (ASCII whitespace). -/
def pyStrip (s : String) : String :=
  String.mk (((s.data.dropWhile isSpaceChar).reverse.dropWhile isSpaceChar).reverse)

/-- Python `<` on strings: code-point lexicographic comparison of the character lists. -/
def charListLt : List Char → List Char → Bool
  | _, [] => false
  | [], _ :: _ => true
  | a :: as, b :: bs => if a = b then charListLt as bs else decide (a < b)

/-- Python `<=` on strings, on the character lists. -/
def charListLe : List Char → List Char → Bool
  | [], _ => true
  | _ :: _, [] => false
  | a :: as, b :: bs => if a = b then charListLe as bs else decide (a < b)

/-- Python `a < b` for strings. -/
def pyStrLt (a b : String) : Bool := charListLt a.data b.data

/-- Python `a <= b` for strings. -/
def pyStrLe (a b : String) : Bool := charListLe a.data b.data

theorem charListLt_irrefl : ∀ l, charListLt l l = false
  | [] => rfl
  | a :: as => by simp [charListLt, charListLt_irrefl as]

theorem charListLt_total_of_ne : ∀ a b, a ≠ b → charListLt a b = true ∨ charListLt b a = true
  | [], [], h => absurd rfl h
  | [], _ :: _, _ => Or.inl rfl
  | _ :: _, [], _ => Or.inr rfl
  | a :: as, b :: bs, h => by
      by_cases hab : a = b
      · subst hab
        have hne : as ≠ bs := fun hh => h (by rw [hh])
        rcases charListLt_total_of_ne as bs hne with h1 | h1 <;>
          simp [charListLt, h1]
      · rcases lt_or_gt_of_ne hab with h1 | h1
        · exact Or.inl (by simp [charListLt, hab, h1])
        · exact Or.inr (by simp [charListLt, Ne.symm hab, h1])

theorem charListLt_trans : ∀ a b c, charListLt a b = true → charListLt b c = true →
    charListLt a c = true
  | [], b, c, h1, h2 => by
      cases b with
      | nil => simp [charListLt] at h1
      | cons bh bs =>
          cases c with
          | nil => simp [charListLt] at h2
          | cons ch cs => rfl
  | _ :: _, [], _, h1, _ => by simp [charListLt] at h1
  | _ :: _, _ :: _, [], _, h2 => by simp [charListLt] at h2
  | a :: as, b :: bs, c :: cs, h1, h2 => by
      by_cases hab : a = b <;> by_cases hbc : b = c
      · subst hab; subst hbc
        simp only [charListLt, if_pos rfl] at h1 h2 ⊢
        exact charListLt_trans as bs cs h1 h2
      · subst hab
        simp only [charListLt, if_neg hbc] at h2
        simp only [charListLt, if_neg hbc, h2]
      · subst hbc
        simp only [charListLt, if_neg hab] at h1
        simp only [charListLt, if_neg hab, h1]
      · simp only [charListLt, if_neg hab] at h1
        simp only [charListLt, if_neg hbc] at h2
        have hac : a < c := lt_trans (of_decide_eq_true h1) (of_decide_eq_true h2)
        simp [charListLt, ne_of_lt hac, hac]

theorem charListLe_refl : ∀ l, charListLe l l = true
  | [] => rfl
  | a :: as => by simp [charListLe, charListLe_refl as]

theorem charListLe_total : ∀ a b, charListLe a b = true ∨ charListLe b a = true
  | [], _ => Or.inl rfl
  | _ :: _, [] => Or.inr rfl
  | a :: as, b :: bs => by
      by_cases hab : a = b
      · subst hab
        rcases charListLe_total as bs with h1 | h1 <;> simp [charListLe, h1]
      · rcases lt_or_gt_of_ne hab with h1 | h1
        · exact Or.inl (by simp [charListLe, hab, h1])
        · exact Or.inr (by simp [charListLe, Ne.symm hab, h1])

theorem charListLe_trans : ∀ a b c, charListLe a b = true → charListLe b c = true →
    charListLe a c = true
  | [], _, _, _, _ => rfl
  | _ :: _, [], _, h1, _ => by simp [charListLe] at h1
  | _ :: _, _ :: _, [], _, h2 => by simp [charListLe] at h2
  | a :: as, b :: bs, c :: cs, h1, h2 => by
      by_cases hab : a = b <;> by_cases hbc : b = c
      · subst hab; subst hbc
        simp only [charListLe, if_pos rfl] at h1 h2 ⊢
        exact charListLe_trans as bs cs h1 h2
      · subst hab
        simp only [charListLe, if_neg hbc] at h2
        simp only [charListLe, if_neg hbc, h2]
      · subst hbc
        simp only [charListLe, if_neg hab] at h1
        simp only [charListLe, if_neg hab, h1]
      · simp only [charListLe, if_neg hab] at h1
        simp only [charListLe, if_neg hbc] at h2
        have hac : a < c := lt_trans (of_decide_eq_true h1) (of_decide_eq_true h2)
        simp [charListLe, ne_of_lt hac, hac]

theorem string_eq_of_data_eq {a b : String} (h : a.data = b.data) : a = b := by
  cases a; cases b; simp_all

theorem pyStrLt_total_of_ne (a b : String) (h : a ≠ b) :
    pyStrLt a b = true ∨ pyStrLt b a = true :=
  charListLt_total_of_ne a.data b.data (fun hd => h (string_eq_of_data_eq hd))

theorem pyStrLt_trans {a b c : String} (h1 : pyStrLt a b = true) (h2 : pyStrLt b c = true) :
    pyStrLt a c = true :=
  charListLt_trans a.data b.data c.data h1 h2

theorem pyStrLt_ne {a b : String} (h : pyStrLt a b = true) : a ≠ b := by
  intro heq
  subst heq
  rw [pyStrLt, charListLt_irrefl] at h
  exact absurd h (by simp)

theorem pyStrLe_refl (a : String) : pyStrLe a a = true :=
  charListLe_refl a.data

theorem pyStrLe_total (a b : String) : pyStrLe a b = true ∨ pyStrLe b a = true :=
  charListLe_total a.data b.data

theorem pyStrLe_trans {a b c : String} (h1 : pyStrLe a b = true) (h2 : pyStrLe b c = true) :
    pyStrLe a c = true :=
  charListLe_trans a.data b.data c.data h1 h2

/-- One lexicographic step on a numeric tuple component. -/
def stepLe (x y : Nat) (rest : Bool) : Bool :=
  if x ≠ y then decide (x < y) else rest

/--
Insertion of one element into a sorted list; on ties the inserted element,
which originates further left in the input, stays first.
-/
def orderedInsert {α : Type} (le : α → α → Bool) (a : α) : List α → List α
  | [] => [a]
  | b :: bs => if le a b then a :: b :: bs else b :: orderedInsert le a bs

/--
Model of Python `sorted(xs, key=...)`: a stable sort by a boolean total
preorder.  Python uses a different stable algorithm (timsort), but every
stable sort of the same list under the same total preorder produces the
same output, so a structurally recursive insertion sort is a faithful
model.
-/
def pySorted {α : Type} (le : α → α → Bool) : List α → List α
  | [] => []
  | a :: as => orderedInsert le a (pySorted le as)

theorem orderedInsert_perm {α : Type} (le : α → α → Bool) (a : α) (l : List α) :
    List.Perm (orderedInsert le a l) (a :: l) := by
  induction l with
  | nil => exact List.Perm.refl _
  | cons b bs ih =>
      by_cases h : le a b
      · simp [orderedInsert, h]
      · simp only [orderedInsert, if_neg h]
        exact (ih.cons b).trans (List.Perm.swap a b bs)

theorem pySorted_perm {α : Type} (le : α → α → Bool) (l : List α) :
    List.Perm (pySorted le l) l := by
  induction l with
  | nil => exact List.Perm.refl _
  | cons a as ih => exact (orderedInsert_perm le a (pySorted le as)).trans (ih.cons a)

theorem mem_pySorted {α : Type} (le : α → α → Bool) (a : α) (l : List α) :
    a ∈ pySorted le l ↔ a ∈ l :=
  (pySorted_perm le l).mem_iff

theorem pairwise_orderedInsert {α : Type} (le : α → α → Bool)
    (trans : ∀ a b c : α, le a b = true → le b c = true → le a c = true)
    (total : ∀ a b : α, le a b = true ∨ le b a = true) (a : α) (l : List α)
    (h : l.Pairwise (fun x y => le x y = true)) :
    (orderedInsert le a l).Pairwise (fun x y => le x y = true) := by
  induction l with
  | nil => simp [orderedInsert]
  | cons b bs ih =>
      rcases List.pairwise_cons.mp h with ⟨hb, hbs⟩
      by_cases hab : le a b = true
      · simp only [orderedInsert, if_pos hab]
        refine List.pairwise_cons.mpr ⟨?_, h⟩
        intro c hc
        rcases List.mem_cons.mp hc with rfl | hc
        · exact hab
        · exact trans a b c hab (hb c hc)
      · simp only [orderedInsert, if_neg hab]
        refine List.pairwise_cons.mpr ⟨?_, ih hbs⟩
        intro c hc
        rcases List.mem_cons.mp ((orderedInsert_perm le a bs).mem_iff.mp hc) with heq | hc
        · rw [heq]
          rcases total a b with h1 | h1
          · exact absurd h1 hab
          · exact h1
        · exact hb c hc

theorem pairwise_pySorted {α : Type} (le : α → α → Bool)
    (trans : ∀ a b c : α, le a b = true → le b c = true → le a c = true)
    (total : ∀ a b : α, le a b = true ∨ le b a = true) (l : List α) :
    (pySorted le l).Pairwise (fun x y => le x y = true) := by
  induction l with
  | nil => simp [pySorted]
  | cons a as ih => exact pairwise_orderedInsert le trans total a _ ih

theorem pySorted_of_pairwise {α : Type} (le : α → α → Bool) :
    ∀ l : List α, l.Pairwise (fun x y => le x y = true) → pySorted le l = l := by
  intro l
  induction l with
  | nil => intro _; rfl
  | cons a as ih =>
      intro h
      rcases List.pairwise_cons.mp h with ⟨ha, has⟩
      show orderedInsert le a (pySorted le as) = a :: as
      rw [ih has]
      cases as with
      | nil => rfl
      | cons b bs => simp [orderedInsert, ha b (List.mem_cons_self b bs)]

/--
One statement of a class body as the pipeline sees it, mirroring the
libcst node shapes consumed by `src/csort/method_describers.py`:
a `SimpleStatementLine` holding an `Expr` over `Ellipsis`, an `Expr` over a
`SimpleString` (whose `value` is the literal token text, quotes included),
an `AnnAssign` or an `Assign` (first target name), a `FunctionDef` (name,
extracted decorator identifiers, parameter names, serialized body text), or
a nested `ClassDef` with its own body.
-/
inductive Member where
  | expr_ellipsis : Member
  | expr_string (value : String) : Member
  | ann_assign (target : String) : Member
  | assign (target : String) : Member
  | function_def (name : String) (decorators : List String) (params : List String)
      (body_code : String) : Member
  | class_def (name : String) (body : List Member) : Member

mutual

/--
Structural equality of members, modelling the Python `==` comparison of the
unchanged check in `format_csort` (CST nodes compare structurally; for the
AST backend the compared lists hold the very same objects, so identity and
structural equality agree there).
-/
def memberEq : Member → Member → Bool
  | .expr_ellipsis, .expr_ellipsis => true
  | .expr_string v, .expr_string w => v = w
  | .ann_assign t, .ann_assign u => t = u
  | .assign t, .assign u => t = u
  | .function_def n d p b, .function_def n2 d2 p2 b2 => n = n2 && d = d2 && p = p2 && b = b2
  | .class_def n b, .class_def n2 b2 => n = n2 && memberListEq b b2
  | _, _ => false

/-- Structural equality of member lists (Python list `==`, elementwise). -/
def memberListEq : List Member → List Member → Bool
  | [], [] => true
  | a :: as, b :: bs => memberEq a b && memberListEq as bs
  | _, _ => false

end

mutual

/-- Structural size of a member, used as the recursion depth bound. -/
def memberSize : Member → Nat
  | .class_def _ b => 1 + memberListSize b
  | _ => 1

/-- Structural size of a member list. -/
def memberListSize : List Member → Nat
  | [] => 1
  | m :: ms => 1 + memberSize m + memberListSize ms

end

/-- Python `isinstance(node, ClassDef)` as used by the formatting recursion. -/
def Member.is_class : Member → Bool
  | .class_def _ _ => true
  | _ => false

/-- Python `isinstance(node, FunctionDef)`. -/
def Member.is_function_def : Member → Bool
  | .function_def _ _ _ _ => true
  | _ => false

-- -------------------------------------------------------------------------
-- src/csort/decorators.py : decorator ordering
-- -------------------------------------------------------------------------

/--
The module-level `decorator_orders` table: a `DecoratorDefaultDict` whose
`__missing__` returns the dictionary length (5 after the five insertions,
and nothing is ever inserted afterwards because `__missing__` does not
store the key).
-/
def decorator_orders (dec : String) : Nat :=
  if dec = "classmethod" then 0
  else if dec = "staticmethod" then 1
  else if dec = "property" then 2
  else if dec = "getter" then 3
  else if dec = "setter" then 4
  else 5

/-- `_get_decorator_order`: the `(level, name)` sort key for one decorator. -/
def get_decorator_order (dec : String) : Nat × String :=
  (decorator_orders dec, dec)

/-- Python comparison of the `(int, str)` keys produced by `_get_decorator_order`. -/
def decKeyLe (a b : String) : Bool :=
  stepLe (decorator_orders a) (decorator_orders b) (pyStrLe a b)

/-- `order_decorators`: Python `sorted(decorators, key=_get_decorator_order)`. -/
def order_decorators (decorators : List String) : List String :=
  pySorted decKeyLe decorators

-- -------------------------------------------------------------------------
-- src/csort/decorators.py : decorator extraction on members
-- -------------------------------------------------------------------------

/--
`get_decorators` on a class-body member: `None` unless the node is a
`FunctionDef`; for functions, the list of extracted identifiers, sorted by
`order_decorators` when `sort` is set.
-/
def get_decorators_m (m : Member) (sort : Bool) : Option (List String) :=
  match m with
  | .function_def _ decs _ _ => some (if sort then order_decorators decs else decs)
  | _ => none

/-- `has_decorator`: membership in the unsorted decorator list, `False` on `None`. -/
def has_decorator (m : Member) (dec : String) : Bool :=
  match get_decorators_m m false with
  | none => false
  | some ds => ds.contains dec

-- -------------------------------------------------------------------------
-- Classifier predicates (src/cst_functions.py, src/generic_functions.py,
-- src/utilities.py)
-- -------------------------------------------------------------------------

/-- Three double quotes. -/
def tripleDouble : String := "\"\"\""

/-- Three single quotes. -/
def tripleSingle : String := String.mk [sq, sq, sq]

/-- `is_ellipsis_cst`: an `Expr` statement whose value is the `...` node. -/
def is_ellipsis_cst : Member → Bool
  | .expr_ellipsis => true
  | _ => false

/-- `is_class_docstring_cst`: the literal string token begins and ends with triple quotes. -/
def is_class_docstring_cst : Member → Bool
  | .expr_string v =>
      (pyStartsWith v tripleDouble && pyEndsWith v tripleDouble)
        || (pyStartsWith v tripleSingle && pyEndsWith v tripleSingle)
  | _ => false

/-- `is_annotated_class_attribute`: an `AnnAssign` statement line. -/
def is_annotated_class_attribute : Member → Bool
  | .ann_assign _ => true
  | _ => false

/-- `is_class_attribute`: an `Assign` statement line. -/
def is_class_attribute : Member → Bool
  | .assign _ => true
  | _ => false

/-- The `name` attribute of a node, when the node shape has one. -/
def Member.name? : Member → Option String
  | .function_def n _ _ _ => some n
  | .class_def n _ => some n
  | _ => none

/-- `is_dunder_method` (CST): guarded by `hasattr(method, "name")`. -/
def is_dunder_method (m : Member) : Bool :=
  match m.name? with
  | some n => pyStartsWith n "__" && pyEndsWith n "__"
  | none => false

/--
`is_private_method` (CST): `method.name.value.startswith("_")`.  The Python
version has no `hasattr` guard; nameless nodes are matched by the rank 0-2
predicates first, so the guard case is unreachable in the pipeline.
-/
def is_private_method (m : Member) : Bool :=
  match m.name? with
  | some n => pyStartsWith n "_"
  | none => false

/-- `is_decorated`: the decorator list exists and is non-empty. -/
def is_decorated (m : Member) : Bool :=
  match get_decorators_m m false with
  | none => false
  | some ds => !ds.isEmpty

/-- `is_csort_group` from generic_functions.py. -/
def is_csort_group (m : Member) : Bool := has_decorator m "csort_group"

/-- `is_class_method` from generic_functions.py. -/
def is_class_method (m : Member) : Bool := has_decorator m "classmethod"

/-- `is_static_method` from generic_functions.py. -/
def is_static_method (m : Member) : Bool := has_decorator m "staticmethod"

/-- `is_property` from generic_functions.py. -/
def is_property (m : Member) : Bool := has_decorator m "property"

/-- `is_getter` from generic_functions.py. -/
def is_getter (m : Member) : Bool := has_decorator m "getter"

/-- `is_setter` from generic_functions.py. -/
def is_setter (m : Member) : Bool := has_decorator m "setter"

-- -------------------------------------------------------------------------
-- src/csort/method_describers.py : configuration and classification
-- -------------------------------------------------------------------------

/-- Tags for the classifying predicate functions used as map keys. -/
inductive PredTag where
  | isEllipsisP | isClassDocstringP | isAnnotatedP | isClassAttrP
  | isDunderP | isCsortGroupP | isClassMethodP | isStaticMethodP
  | isPropertyP | isGetterP | isSetterP | isDecoratedP | isPrivateP
  deriving DecidableEq, Repr

/-- Dispatch a predicate tag to the predicate it names. -/
def evalPred : PredTag → Member → Bool
  | .isEllipsisP, m => is_ellipsis_cst m
  | .isClassDocstringP, m => is_class_docstring_cst m
  | .isAnnotatedP, m => is_annotated_class_attribute m
  | .isClassAttrP, m => is_class_attribute m
  | .isDunderP, m => is_dunder_method m
  | .isCsortGroupP, m => is_csort_group m
  | .isClassMethodP, m => is_class_method m
  | .isStaticMethodP, m => is_static_method m
  | .isPropertyP, m => is_property m
  | .isGetterP, m => is_getter m
  | .isSetterP, m => is_setter m
  | .isDecoratedP, m => is_decorated m
  | .isPrivateP, m => is_private_method m

/-- The method-category keys accepted in the `csort.order` config section. -/
inductive CfgKey where
  | dunder_method | csort_group | class_method | static_method
  | property | getter | setter | decorated_method | private_method
  deriving DecidableEq, Repr

/-- `_setup_config_to_func_map` of `CSTMethodDescriber`. -/
def configToFuncMap : CfgKey → PredTag
  | .dunder_method => .isDunderP
  | .csort_group => .isCsortGroupP
  | .class_method => .isClassMethodP
  | .static_method => .isStaticMethodP
  | .property => .isPropertyP
  | .getter => .isGetterP
  | .setter => .isSetterP
  | .decorated_method => .isDecoratedP
  | .private_method => .isPrivateP

/-- `INSTANCE_METHOD_LEVEL` from configs.py. -/
def INSTANCE_METHOD_LEVEL : Nat := 11

/--
A csort configuration: the `csort.order` section (the `instance_method`
entry, which `_setup_func_to_level_map` pops before iterating, is kept as a
separate optional field) and the `use_csort_group` parameter.
-/
structure Config where
  order : List (CfgKey × Nat)
  instance_method : Option Nat
  use_csort_group : Bool
  deriving DecidableEq, Repr

/-- `DEFAULT_CSORT_ORDER_PARAMS` from configs.py, minus the popped `instance_method`. -/
def DEFAULT_CSORT_ORDER_PARAMS : List (CfgKey × Nat) :=
  [(.dunder_method, 3), (.csort_group, 4), (.class_method, 5), (.static_method, 6),
   (.property, 7), (.getter, 8), (.setter, 9), (.decorated_method, 10),
   (.private_method, 12)]

/-- The compiled-in default configuration (no config file found). -/
def default_config : Config :=
  { order := DEFAULT_CSORT_ORDER_PARAMS
    instance_method := some INSTANCE_METHOD_LEVEL
    use_csort_group := true }

/-- `_non_method_defaults` of `CSTMethodDescriber`: the four fixed structural levels. -/
def nonMethodDefaults : List (PredTag × Nat) :=
  [(.isEllipsisP, 0), (.isClassDocstringP, 0), (.isAnnotatedP, 1), (.isClassAttrP, 2)]

/-- Python dict construction from an association list: repeated keys keep the first position and take the last value. -/
def toOrderedDict (l : List (PredTag × Nat)) : List (PredTag × Nat) :=
  l.foldl (fun acc p =>
    if (acc.map Prod.fst).contains p.1
    then acc.map (fun q => if q.1 = p.1 then p else q)
    else acc ++ [p]) []

/--
`_setup_func_to_level_map`: fixed structural defaults, then the configured
method levels, then compiled-in defaults for any category the config omits;
the whole list is stably sorted by level and read as an ordered dict.
-/
def setupFuncToLevelMap (cfg : Config) : List (PredTag × Nat) :=
  let mapping := nonMethodDefaults ++ cfg.order.map (fun p => (configToFuncMap p.1, p.2))
  let missing := DEFAULT_CSORT_ORDER_PARAMS.filter
    (fun d => !(mapping.map Prod.fst).contains (configToFuncMap d.1))
  let mapping := mapping ++ missing.map (fun d => (configToFuncMap d.1, d.2))
  toOrderedDict (pySorted (fun a b => decide (a.2 ≤ b.2)) mapping)

/-- The `_instance_method_default` attribute after `_setup_func_to_level_map` ran. -/
def instanceMethodDefault (cfg : Config) : Nat :=
  cfg.instance_method.getD INSTANCE_METHOD_LEVEL

/-- First-match scan of the ordered predicate-to-level map, with the `is_csort_group` skip. -/
def levelScan (m : Member) (use_csort_group : Bool) (dflt : Nat) :
    List (PredTag × Nat) → Nat
  | [] => dflt
  | (p, lvl) :: rest =>
      if p = .isCsortGroupP && !use_csort_group then levelScan m use_csort_group dflt rest
      else if evalPred p m then lvl
      else levelScan m use_csort_group dflt rest

/-- `MethodDescriber.get_method_type`: the level of the first matching predicate. -/
def get_method_type (cfg : Config) (m : Member) (use_csort_group : Bool) : Nat :=
  levelScan m use_csort_group (instanceMethodDefault cfg) (setupFuncToLevelMap cfg)

/--
`get_expression_name` for the CST backend: the `...` statement names as
`ellipsis`, a triple-quoted string statement as `docstring`, attributes and
definitions by their identifier.  Modelled from the spec: the current
backend helper for naming a nested class member is absent from the source
tree; per sections 3 and 4.1 a class member carries its declared name.  For
a non-docstring string statement the factory lookup has no entry (Python
raises); the model returns the literal token, a case no claim touches.
-/
def get_expression_name (m : Member) : String :=
  match m with
  | .expr_ellipsis => "ellipsis"
  | .expr_string v => if is_class_docstring_cst (.expr_string v) then "docstring" else v
  | .ann_assign t => t
  | .assign t => t
  | .function_def n _ _ _ => n
  | .class_def n _ => n

/-- The composite sort key `((level, second_level), decorators, name)` returned by `describe_method`. -/
structure MKey where
  level : Nat
  second : Nat
  decs : Option (List String)
  name : String
  deriving DecidableEq, Repr

/--
`describe_method`: name, primary level, sorted decorator list; when the
grouping decorator is present and grouping is enabled, the secondary level
is recomputed without the group predicate and `csort_group` is removed from
the decorator list, otherwise the secondary level equals the primary one.
-/
def describe_method (cfg : Config) (m : Member) : MKey :=
  let name := get_expression_name m
  let level := get_method_type cfg m cfg.use_csort_group
  match get_decorators_m m true with
  | some ds =>
      if ds.contains "csort_group" && cfg.use_csort_group then
        { level := level, second := get_method_type cfg m false,
          decs := some (ds.erase "csort_group"), name := name }
      else
        { level := level, second := level, decs := some ds, name := name }
  | none => { level := level, second := level, decs := none, name := name }

-- -------------------------------------------------------------------------
-- The composite key order used by Python sorted() on describe_method keys
-- -------------------------------------------------------------------------

/-- Python `<` on lists of strings (strict lexicographic comparison). -/
def strListLt : List String → List String → Bool
  | [], [] => false
  | [], _ :: _ => true
  | _ :: _, [] => false
  | a :: as, b :: bs => if a = b then strListLt as bs else pyStrLt a b

/-- Comparison of the decorator-list and name components of two keys. -/
def tailLe (d1 d2 : Option (List String)) (n1 n2 : String) : Bool :=
  match d1, d2 with
  | none, none => pyStrLe n1 n2
  | some e1, some e2 => if e1 = e2 then pyStrLe n1 n2 else strListLt e1 e2
  | none, some _ => true
  | some _, none => false

/--
Python tuple comparison of `describe_method` keys, as a boolean `≤`-style
relation: compare `(level, second)` numerically, then the decorator
component, then the name.  When one decorator component is `None` and the
other a list at equal levels, Python raises a `TypeError`; the relation
totalises that unreachable branch by putting `None` first (the theorems
about sorting carry a hypothesis excluding such mixed ties).
-/
def keyLe (a b : MKey) : Bool :=
  stepLe a.level b.level (stepLe a.second b.second (tailLe a.decs b.decs a.name b.name))

theorem strListLt_irrefl : ∀ l, strListLt l l = false
  | [] => rfl
  | a :: as => by simp [strListLt, strListLt_irrefl as]

theorem strListLt_total_of_ne : ∀ a b, a ≠ b → strListLt a b = true ∨ strListLt b a = true
  | [], [], h => absurd rfl h
  | [], _ :: _, _ => Or.inl rfl
  | _ :: _, [], _ => Or.inr rfl
  | a :: as, b :: bs, h => by
      by_cases hab : a = b
      · subst hab
        have hne : as ≠ bs := fun hh => h (by rw [hh])
        rcases strListLt_total_of_ne as bs hne with h1 | h1 <;>
          simp [strListLt, h1]
      · rcases pyStrLt_total_of_ne a b hab with h1 | h1
        · exact Or.inl (by simp [strListLt, hab, h1])
        · exact Or.inr (by simp [strListLt, Ne.symm hab, h1])

theorem strListLt_trans : ∀ a b c, strListLt a b = true → strListLt b c = true →
    strListLt a c = true
  | [], b, c, h1, h2 => by
      cases b with
      | nil => simp [strListLt] at h1
      | cons bh bs =>
          cases c with
          | nil => simp [strListLt] at h2
          | cons ch cs => rfl
  | _ :: _, [], _, h1, _ => by simp [strListLt] at h1
  | _ :: _, _ :: _, [], _, h2 => by simp [strListLt] at h2
  | a :: as, b :: bs, c :: cs, h1, h2 => by
      by_cases hab : a = b <;> by_cases hbc : b = c
      · subst hab; subst hbc
        simp only [strListLt, if_pos rfl] at h1 h2 ⊢
        exact strListLt_trans as bs cs h1 h2
      · subst hab
        simp only [strListLt, if_neg hbc] at h2
        simp only [strListLt, if_neg hbc, h2]
      · subst hbc
        simp only [strListLt, if_neg hab] at h1
        simp only [strListLt, if_neg hab, h1]
      · simp only [strListLt, if_neg hab] at h1
        simp only [strListLt, if_neg hbc] at h2
        have hac : pyStrLt a c = true := pyStrLt_trans h1 h2
        simp [strListLt, pyStrLt_ne hac, hac]

theorem stepLe_eq_of_eq (x : Nat) (r : Bool) : stepLe x x r = r := by
  simp [stepLe]

theorem stepLe_eq_of_ne {x y : Nat} (h : x ≠ y) (r : Bool) :
    stepLe x y r = decide (x < y) := by
  simp [stepLe, h]

theorem stepLe_refl (x : Nat) (r : Bool) (hr : r = true) : stepLe x x r = true := by
  rw [stepLe_eq_of_eq, hr]

theorem stepLe_total (x y : Nat) (p q : Bool) (hpq : p = true ∨ q = true) :
    stepLe x y p = true ∨ stepLe y x q = true := by
  by_cases e : x = y
  · subst e; rw [stepLe_eq_of_eq, stepLe_eq_of_eq]; exact hpq
  · rcases lt_or_gt_of_ne e with h | h
    · exact Or.inl (by rw [stepLe_eq_of_ne e]; exact decide_eq_true h)
    · exact Or.inr (by rw [stepLe_eq_of_ne (Ne.symm e)]; exact decide_eq_true h)

theorem stepLe_trans {x y z : Nat} {p q r : Bool} (h1 : stepLe x y p = true)
    (h2 : stepLe y z q = true) (hpq : p = true → q = true → r = true) :
    stepLe x z r = true := by
  by_cases e1 : x = y
  · subst e1
    rw [stepLe_eq_of_eq] at h1
    by_cases e2 : x = z
    · subst e2
      rw [stepLe_eq_of_eq] at h2 ⊢
      exact hpq h1 h2
    · rw [stepLe_eq_of_ne e2] at h2 ⊢
      exact h2
  · rw [stepLe_eq_of_ne e1] at h1
    by_cases e2 : y = z
    · subst e2
      rw [stepLe_eq_of_ne e1]
      exact h1
    · rw [stepLe_eq_of_ne e2] at h2
      have h3 : x < z := lt_trans (of_decide_eq_true h1) (of_decide_eq_true h2)
      rw [stepLe_eq_of_ne (ne_of_lt h3)]
      exact decide_eq_true h3

theorem tailLe_refl (d : Option (List String)) (n : String) : tailLe d d n n = true := by
  cases d <;> simp [tailLe, pyStrLe_refl]

theorem tailLe_total (d1 d2 : Option (List String)) (n1 n2 : String) :
    tailLe d1 d2 n1 n2 = true ∨ tailLe d2 d1 n2 n1 = true := by
  cases d1 with
  | none =>
      cases d2 with
      | none => rcases pyStrLe_total n1 n2 with h | h <;> [exact Or.inl (by simp [tailLe, h]); exact Or.inr (by simp [tailLe, h])]
      | some e2 => exact Or.inl rfl
  | some e1 =>
      cases d2 with
      | none => exact Or.inr rfl
      | some e2 =>
          by_cases hd : e1 = e2
          · subst hd
            rcases pyStrLe_total n1 n2 with h | h <;> [exact Or.inl (by simp [tailLe, h]); exact Or.inr (by simp [tailLe, h])]
          · rcases strListLt_total_of_ne e1 e2 hd with h | h
            · exact Or.inl (by simp [tailLe, hd, h])
            · exact Or.inr (by simp [tailLe, Ne.symm hd, h])

theorem tailLe_trans {d1 d2 d3 : Option (List String)} {n1 n2 n3 : String}
    (h1 : tailLe d1 d2 n1 n2 = true) (h2 : tailLe d2 d3 n2 n3 = true) :
    tailLe d1 d3 n1 n3 = true := by
  cases d1 with
  | none =>
      cases d3 with
      | none =>
          cases d2 with
          | none =>
              simp only [tailLe] at h1 h2 ⊢
              exact pyStrLe_trans h1 h2
          | some e2 => simp [tailLe] at h2
      | some e3 => rfl
  | some e1 =>
      cases d2 with
      | none => simp [tailLe] at h1
      | some e2 =>
          cases d3 with
          | none => simp [tailLe] at h2
          | some e3 =>
              by_cases h12 : e1 = e2 <;> by_cases h23 : e2 = e3
              · subst h12; subst h23
                simp only [tailLe, if_pos rfl] at h1 h2 ⊢
                exact pyStrLe_trans h1 h2
              · subst h12
                simp only [tailLe, if_neg h23] at h2 ⊢
                exact h2
              · subst h23
                simp only [tailLe, if_neg h12] at h1 ⊢
                exact h1
              · simp only [tailLe, if_neg h12] at h1
                simp only [tailLe, if_neg h23] at h2
                have h3 := strListLt_trans e1 e2 e3 h1 h2
                by_cases h13 : e1 = e3
                · subst h13
                  rw [strListLt_irrefl] at h3
                  exact absurd h3 (by simp)
                · simp only [tailLe, if_neg h13]
                  exact h3

theorem keyLe_refl (a : MKey) : keyLe a a = true :=
  stepLe_refl _ _ (stepLe_refl _ _ (tailLe_refl _ _))

theorem keyLe_total (a b : MKey) : keyLe a b = true ∨ keyLe b a = true :=
  stepLe_total _ _ _ _ (stepLe_total _ _ _ _ (tailLe_total _ _ _ _))

theorem keyLe_trans (a b c : MKey) (h1 : keyLe a b = true) (h2 : keyLe b c = true) :
    keyLe a c = true :=
  stepLe_trans h1 h2 (fun g1 g2 => stepLe_trans g1 g2 (fun t1 t2 => tailLe_trans t1 t2))

theorem keyLe_level_le {a b : MKey} (h : keyLe a b = true) : a.level ≤ b.level := by
  by_cases e : a.level = b.level
  · exact le_of_eq e
  · rw [keyLe, stepLe_eq_of_ne e] at h
    exact le_of_lt (of_decide_eq_true h)

-- -------------------------------------------------------------------------
-- src/csort/formatting.py : order_class_functions
-- -------------------------------------------------------------------------

/-- The comparison `sorted` uses in `order_class_functions`: keys from `describe_method`. -/
def memberLe (cfg : Config) (a b : Member) : Bool :=
  keyLe (describe_method cfg a) (describe_method cfg b)

theorem memberLe_trans (cfg : Config) : ∀ a b c : Member,
    memberLe cfg a b → memberLe cfg b c → memberLe cfg a c :=
  fun _ _ _ h1 h2 => keyLe_trans _ _ _ h1 h2

theorem memberLe_total (cfg : Config) : ∀ a b : Member,
    memberLe cfg a b || memberLe cfg b a := by
  intro a b
  rcases keyLe_total (describe_method cfg a) (describe_method cfg b) with h | h <;>
    simp [memberLe, h]

/--
The recursive result type of `order_class_functions`
(`ordered_methods_type`): a plain statement, or the singleton dictionary
built for a class-holding member together with its recursively ordered body.
-/
inductive Ordered where
  | stmt (m : Member)
  | clsNode (m : Member) (inner : List Ordered)

/-- The member stored in one entry of the ordered list (the dict key for classes). -/
def Ordered.node : Ordered → Member
  | .stmt m => m
  | .clsNode m _ => m

/--
`extract_class_components` (cst backend): the statements of a class body.
For non-class nodes the pipeline never calls it in this model
(`contains_class` below is always false); the empty tuple default of the
source is returned.
-/
def extract_class_components : Member → List Member
  | .class_def _ body => body
  | _ => []

/--
Modelled from the spec: `parser.contains_class` is referenced by
`order_class_functions` but its definition is absent from the source tree.
Per section 4.5 it flags, for back-ends that need it, a member containing a
nested class; in this embedding a member other than a class definition
carries no represented nested statements, so the flag is always false.
-/
def contains_class (_ : Member) : Bool := false

/--
Recursion kernel of `order_class_functions`, structurally recursive on an
explicit depth bound so that it evaluates inside the kernel; the bound is
irrelevant once it covers the tree size (`orderCFAux_irrel`), and
`order_class_functions_eq` below recovers the recursion of the source.
-/
def orderCFAux (cfg : Config) : Nat → List Member → Bool → List Ordered
  | 0, _, _ => []
  | fuel + 1, methods, sortFlag =>
      (if sortFlag then pySorted (memberLe cfg) methods else methods).map fun m =>
        if Member.is_class m || contains_class m then
          Ordered.clsNode m
            (orderCFAux cfg fuel (extract_class_components m) (Member.is_class m))
        else
          Ordered.stmt m

/--
`order_class_functions`: when the parent is `None` or a class, sort the
member list by the `describe_method` key (Python `sorted`); then rebuild
the list, recursing into every member that is a class (or contains one),
wrapping it with its recursively ordered components.
-/
def order_class_functions (cfg : Config) (methods : List Member) (sortFlag : Bool) :
    List Ordered :=
  orderCFAux cfg (memberListSize methods) methods sortFlag

theorem memberListSize_pos (ms : List Member) : 1 ≤ memberListSize ms := by
  cases ms with
  | nil => simp [memberListSize]
  | cons m l => simp only [memberListSize]; omega

theorem extract_size_le (m : Member) :
    memberListSize (extract_class_components m) ≤ memberSize m := by
  cases m <;> simp [extract_class_components, memberSize, memberListSize]

theorem memberSize_lt_of_mem {m : Member} : ∀ {ms : List Member}, m ∈ ms →
    memberSize m < memberListSize ms := by
  intro ms
  induction ms with
  | nil => intro h; cases h
  | cons a as ih =>
      intro h
      rcases List.mem_cons.mp h with heq | hm
      · rw [heq]; simp [memberListSize]; omega
      · have := ih hm; simp [memberListSize]; omega

theorem mem_if_sorted {cfg : Config} {f : Bool} {m : Member} {ms : List Member}
    (h : m ∈ (if f then pySorted (memberLe cfg) ms else ms)) : m ∈ ms := by
  by_cases hf : f
  · rw [if_pos hf] at h; exact (mem_pySorted (memberLe cfg) m ms).mp h
  · rw [if_neg hf] at h; exact h

theorem orderCFAux_irrel (cfg : Config) : ∀ fuel1 fuel2 ms f,
    memberListSize ms ≤ fuel1 → memberListSize ms ≤ fuel2 →
    orderCFAux cfg fuel1 ms f = orderCFAux cfg fuel2 ms f := by
  intro fuel1
  induction fuel1 with
  | zero => intro fuel2 ms f h1 _; exact absurd (le_trans (memberListSize_pos ms) h1) (by omega)
  | succ k ih =>
      intro fuel2 ms f h1 h2
      cases fuel2 with
      | zero => exact absurd (le_trans (memberListSize_pos ms) h2) (by omega)
      | succ k2 =>
          show List.map _ _ = List.map _ _
          apply List.map_congr_left
          intro m hm
          have hmem : m ∈ ms := mem_if_sorted hm
          have hsz : memberSize m < memberListSize ms := memberSize_lt_of_mem hmem
          have hex : memberListSize (extract_class_components m) ≤ memberSize m := extract_size_le m
          by_cases hc : Member.is_class m || contains_class m
          · simp only [if_pos hc]
            rw [ih k2 (extract_class_components m) (Member.is_class m) (by omega) (by omega)]
          · simp only [if_neg hc]

/-- One entry of the rebuilt list, as a standalone function. -/
def orderOne (cfg : Config) (m : Member) : Ordered :=
  if Member.is_class m || contains_class m then
    Ordered.clsNode m (order_class_functions cfg (extract_class_components m) (Member.is_class m))
  else
    Ordered.stmt m

theorem order_class_functions_eq (cfg : Config) (ms : List Member) (f : Bool) :
    order_class_functions cfg ms f =
      (if f then pySorted (memberLe cfg) ms else ms).map (orderOne cfg) := by
  show orderCFAux cfg (memberListSize ms) ms f = _
  obtain ⟨k, hk⟩ : ∃ k, memberListSize ms = k + 1 :=
    ⟨memberListSize ms - 1, by have := memberListSize_pos ms; omega⟩
  rw [hk]
  show List.map _ _ = List.map _ _
  apply List.map_congr_left
  intro m hm
  have hmem : m ∈ ms := mem_if_sorted hm
  have hsz : memberSize m < memberListSize ms := memberSize_lt_of_mem hmem
  have hex : memberListSize (extract_class_components m) ≤ memberSize m := extract_size_le m
  by_cases hc : Member.is_class m || contains_class m
  · simp only [orderOne, if_pos hc]
    rw [order_class_functions,
      orderCFAux_irrel cfg k (memberListSize (extract_class_components m))
        (extract_class_components m) (Member.is_class m) (by omega) (by omega)]
  · simp only [orderOne, if_neg hc]

theorem orderOne_node (cfg : Config) (m : Member) : (orderOne cfg m).node = m := by
  by_cases h : Member.is_class m || contains_class m <;> simp [orderOne, h, Ordered.node]

theorem order_class_functions_map_node (cfg : Config) (ms : List Member) :
    (order_class_functions cfg ms true).map Ordered.node = pySorted (memberLe cfg) ms := by
  rw [order_class_functions_eq, if_pos rfl, List.map_map]
  have h : (Ordered.node ∘ orderOne cfg) = id := funext fun m => orderOne_node cfg m
  rw [h, List.map_id]

/--
Absence of the undefined Python comparison: no two members of the list have
equal primary and secondary ranks while exactly one of them has a decorator
list (comparing `None` with a list raises a `TypeError` in Python).
-/
def MixedTiesFree (cfg : Config) (ms : List Member) : Prop :=
  ∀ a ∈ ms, ∀ b ∈ ms,
    (describe_method cfg a).level = (describe_method cfg b).level →
    (describe_method cfg a).second = (describe_method cfg b).second →
    ((describe_method cfg a).decs.isSome ↔ (describe_method cfg b).decs.isSome)

instance (cfg : Config) (ms : List Member) : Decidable (MixedTiesFree cfg ms) := by
  unfold MixedTiesFree; infer_instance

/--
C1: for every class body sorted by `order_class_functions` (any
configuration, restricted to member lists on which the Python key
comparison is defined), every pair of output members in order is related by
the composite key `((primary, secondary), sorted decorators, name)` of
`describe_method` — in particular primary ranks are monotone, and equal
ranks are resolved by the canonically sorted decorator list and then the
extracted name.
-/
theorem order_class_functions_sorted_by_key (cfg : Config) (ms : List Member)
    (_hmix : MixedTiesFree cfg ms) :
    (((order_class_functions cfg ms true).map Ordered.node).Pairwise
        (fun a b => memberLe cfg a b = true))
    ∧ (((order_class_functions cfg ms true).map Ordered.node).Pairwise
        (fun a b => (describe_method cfg a).level ≤ (describe_method cfg b).level)) := by
  have hsort : ((order_class_functions cfg ms true).map Ordered.node).Pairwise
      (fun a b => memberLe cfg a b = true) := by
    rw [order_class_functions_map_node]
    refine pairwise_pySorted (memberLe cfg) (memberLe_trans cfg) ?_ ms
    intro a b
    rcases keyLe_total (describe_method cfg a) (describe_method cfg b) with h | h
    · exact Or.inl h
    · exact Or.inr h
  refine ⟨hsort, hsort.imp ?_⟩
  intro a b h
  exact keyLe_level_le h

/-- The canonical predicate precedence of the default configuration. -/
def canonicalFuncLevels : List (PredTag × Nat) :=
  [(.isEllipsisP, 0), (.isClassDocstringP, 0), (.isAnnotatedP, 1), (.isClassAttrP, 2),
   (.isDunderP, 3), (.isCsortGroupP, 4), (.isClassMethodP, 5), (.isStaticMethodP, 6),
   (.isPropertyP, 7), (.isGetterP, 8), (.isSetterP, 9), (.isDecoratedP, 10),
   (.isPrivateP, 12)]

theorem setup_default_canonical : setupFuncToLevelMap default_config = canonicalFuncLevels := by
  decide

theorem pyStartsWith_underscore_of_two {n : String} (h2 : pyStartsWith n "__" = true) :
    pyStartsWith n "_" = true := by
  unfold pyStartsWith at *
  have e2 : ("__" : String).data = ['_', '_'] := rfl
  have e1 : ("_" : String).data = ['_'] := rfl
  rw [e2] at h2
  rw [e1]
  cases hnd : n.data with
  | nil => rw [hnd] at h2; simp [List.isPrefixOf] at h2
  | cons c cs =>
      rw [hnd] at h2
      simp [List.isPrefixOf] at h2 ⊢
      exact h2.1

/--
C5: with the default configuration the classifier consults the capability
predicates in the canonical precedence order (ellipsis, docstring,
annotated attribute, plain attribute, dunder, group, classmethod,
staticmethod, property, getter, setter, other decorator, private name) and
returns the rank of the first match, falling through to the instance-method
default 11; a decorated dunder method is ranked 3, and an undecorated
non-underscore method falls through to 11.
-/
theorem get_method_type_default_order :
    setupFuncToLevelMap default_config = canonicalFuncLevels
    ∧ (∀ n ds ps b, is_dunder_method (Member.function_def n ds ps b) = true →
        get_method_type default_config (Member.function_def n ds ps b) true = 3)
    ∧ (∀ n ps b, pyStartsWith n "_" = false →
        get_method_type default_config (Member.function_def n [] ps b) true =
          INSTANCE_METHOD_LEVEL) := by
  refine ⟨setup_default_canonical, ?_, ?_⟩
  · intro n ds ps b hd
    rw [get_method_type, setup_default_canonical]
    simp [canonicalFuncLevels, levelScan, evalPred, is_ellipsis_cst, is_class_docstring_cst,
      is_annotated_class_attribute, is_class_attribute, hd]
  · intro n ps b h
    have hdd : pyStartsWith n "__" = false := by
      by_cases hc : pyStartsWith n "__" = true
      · exact absurd (pyStartsWith_underscore_of_two hc) (by simp [h])
      · simpa using hc
    rw [get_method_type, setup_default_canonical]
    simp [canonicalFuncLevels, levelScan, evalPred, is_ellipsis_cst, is_class_docstring_cst,
      is_annotated_class_attribute, is_class_attribute, is_dunder_method, is_private_method,
      Member.name?, hdd, h, is_csort_group, is_class_method, is_static_method, is_property,
      is_getter, is_setter, is_decorated, has_decorator, get_decorators_m,
      instanceMethodDefault, default_config, INSTANCE_METHOD_LEVEL]

/-- Witness for C5: a decorated dunder ranks 3, an undecorated plain method ranks 11. -/
theorem get_method_type_default_order_witness :
    (is_dunder_method ( Member.function_def "__str__" ["wraps"] ["self"] "pass") = true
      ∧ get_method_type default_config
          ( Member.function_def "__str__" ["wraps"] ["self"] "pass") true = 3)
    ∧ (pyStartsWith "run" "_" = false
      ∧ get_method_type default_config ( Member.function_def "run" [] ["self"] "x = 1") true =
          INSTANCE_METHOD_LEVEL) :=
  ⟨⟨by decide,
      get_method_type_default_order.2.1 "__str__" ["wraps"] ["self"] "pass" (by decide)⟩,
    ⟨by decide,
      get_method_type_default_order.2.2 "run" ["self"] "x = 1" (by decide)⟩⟩

-- -------------------------------------------------------------------------
-- C6 : grouping opt-out
-- -------------------------------------------------------------------------

/-- The default configuration with `use_csort_group` switched off. -/
def no_group_config : Config :=
  { default_config with use_csort_group := false }

/--
C6 counterexample: with `use_csort_group = false`, a member decorated only
with `csort_group` does not receive the sort key of the undecorated member
— it is still classified as a decorated method (rank 10, not 11) and keeps
`csort_group` in the decorator component — and its final position differs:
the group-decorated `foo` sorts before `aaa`, while the undecorated `foo`
sorts after `aaa`.
-/
theorem csort_group_optout_counterexample :
    (describe_method no_group_config ( Member.function_def "foo" ["csort_group"] ["self"] "pass")
        ≠ describe_method no_group_config ( Member.function_def "foo" [] ["self"] "pass"))
    ∧ describe_method no_group_config ( Member.function_def "foo" ["csort_group"] ["self"] "pass")
        = { level := 10, second := 10, decs := some ["csort_group"], name := "foo" }
    ∧ describe_method no_group_config ( Member.function_def "foo" [] ["self"] "pass")
        = { level := 11, second := 11, decs := some [], name := "foo" }
    ∧ ((order_class_functions no_group_config
          [ Member.function_def "foo" ["csort_group"] ["self"] "pass",
           Member.function_def "aaa" [] ["self"] "pass"] true).map
          (fun o => get_expression_name o.node) = ["foo", "aaa"])
    ∧ ((order_class_functions no_group_config
          [ Member.function_def "foo" [] ["self"] "pass",
           Member.function_def "aaa" [] ["self"] "pass"] true).map
          (fun o => get_expression_name o.node) = ["aaa", "foo"]) :=
  ⟨by decide, by decide, by decide, by rfl, by rfl⟩

/--
C6 amended: with `use_csort_group = false`, the group predicate is skipped
when computing the rank (both key levels are the rank computed without the
group predicate), but the grouping decorator is not removed from the
decorator-list component of the key, and the member still counts as
decorated for ranking; it therefore does not in general sort as if the
decorator were absent.
-/
theorem describe_method_no_group (cfg : Config) (m : Member)
    (h : cfg.use_csort_group = false) :
    describe_method cfg m =
      { level := get_method_type cfg m false, second := get_method_type cfg m false,
        decs := get_decorators_m m true, name := get_expression_name m } := by
  unfold describe_method
  rw [h]
  cases hd : get_decorators_m m true with
  | none => simp
  | some ds => simp

/-- Witness for the amended C6 at the group-decorated member. -/
theorem describe_method_no_group_witness :
    no_group_config.use_csort_group = false
    ∧ describe_method no_group_config
        ( Member.function_def "foo" ["csort_group"] ["self"] "pass") =
      { level := get_method_type no_group_config
            ( Member.function_def "foo" ["csort_group"] ["self"] "pass") false,
        second := get_method_type no_group_config
            ( Member.function_def "foo" ["csort_group"] ["self"] "pass") false,
        decs := get_decorators_m ( Member.function_def "foo" ["csort_group"] ["self"] "pass") true,
        name := get_expression_name ( Member.function_def "foo" ["csort_group"] ["self"] "pass") } :=
  ⟨by decide,
    describe_method_no_group no_group_config
      ( Member.function_def "foo" ["csort_group"] ["self"] "pass") (by decide)⟩

theorem decKeyLe_trans (a b c : String) (h1 : decKeyLe a b = true) (h2 : decKeyLe b c = true) :
    decKeyLe a c = true :=
  stepLe_trans h1 h2 (fun t1 t2 => pyStrLe_trans t1 t2)

theorem decKeyLe_total (a b : String) : decKeyLe a b = true ∨ decKeyLe b a = true :=
  stepLe_total _ _ _ _ (pyStrLe_total a b)

/--
C7: `order_decorators` returns a permutation of its input sorted by the
`(canonical rank, name)` key: `classmethod`, `staticmethod`, `property`,
`getter`, `setter` carry ranks 0 to 4 in that relative order, every
decorator outside the table carries rank 5 (after all known ones), and
equal ranks are tie-broken alphabetically.
-/
theorem order_decorators_canonical :
    (∀ ds : List String,
        List.Perm (order_decorators ds) ds
          ∧ (order_decorators ds).Pairwise (fun a b => decKeyLe a b = true))
    ∧ (decorator_orders "classmethod" = 0 ∧ decorator_orders "staticmethod" = 1
        ∧ decorator_orders "property" = 2 ∧ decorator_orders "getter" = 3
        ∧ decorator_orders "setter" = 4)
    ∧ (∀ s : String,
        s ∉ (["classmethod", "staticmethod", "property", "getter", "setter"] : List String) →
          decorator_orders s = 5) := by
  refine ⟨?_, by decide, ?_⟩
  · intro ds
    exact ⟨pySorted_perm decKeyLe ds,
      pairwise_pySorted decKeyLe decKeyLe_trans decKeyLe_total ds⟩
  · intro s hs
    simp only [List.mem_cons, List.mem_singleton, not_or] at hs
    obtain ⟨h1, h2, h3, h4, h5⟩ := hs
    simp [decorator_orders, h1, h2, h3, h4, h5]

/-- Witness for C7 at a decorator name outside the canonical table. -/
theorem order_decorators_canonical_witness :
    ("wraps" ∉ (["classmethod", "staticmethod", "property", "getter", "setter"] : List String))
      ∧ decorator_orders "wraps" = 5 :=
  ⟨by decide, order_decorators_canonical.2.2 "wraps" (by decide)⟩

-- -------------------------------------------------------------------------
-- src/csort/edge_cases.py
-- -------------------------------------------------------------------------

/-- The newline character. -/
def nlChar : Char := Char.ofNat 10

/-- The guard pattern of `handle_if_name_main` (single quotes, as in the source). -/
def mainPattern : String :=
  "if __name__ == " ++ String.mk [sq] ++ "__main__" ++ String.mk [sq]

/-- The pattern as a character list. -/
def mainPatChars : List Char := mainPattern.data

/-- Number of leading newline characters. -/
def countNl : List Char → Nat
  | [] => 0
  | c :: rest => if c = nlChar then countNl rest + 1 else 0

theorem countNl_le : ∀ l : List Char, countNl l ≤ l.length
  | [] => le_refl _
  | c :: rest => by
      by_cases h : c = nlChar
      · simp only [countNl, if_pos h, List.length_cons]
        exact Nat.succ_le_succ (countNl_le rest)
      · simp [countNl, h]

/--
The substitution performed by `re.sub` on the pattern
`(?:\x5cn*)if __name__ == ...`: a maximal run of newlines followed by the
guard is replaced by exactly three newlines and the guard (the regex can
never match the guard after only part of a newline run, because the guard
does not start with a newline).
-/
def subMainGo : List Char → List Char
  | [] => []
  | c :: cs =>
      if mainPatChars.isPrefixOf ((c :: cs).drop (countNl (c :: cs))) then
        (nlChar :: nlChar :: nlChar :: mainPatChars)
          ++ subMainGo (((c :: cs).drop (countNl (c :: cs))).drop mainPatChars.length)
      else
        c :: subMainGo cs
termination_by l => l.length
decreasing_by
  · have h1 := countNl_le (c :: rest)
    have h2 : 0 < mainPatChars.length := by decide
    simp only [List.length_drop]
    simp only [List.length_cons] at h1 ⊢
    omega
  · simp

/-- `handle_if_name_main`: normalise the blank lines before a main guard, if one occurs. -/
def handle_if_name_main (source_code : String) : String :=
  if pyContainsStr source_code mainPattern then String.mk (subMainGo source_code.data)
  else source_code

/-- `handle_last_line_white_space`: append a final newline when one is missing. -/
def handle_last_line_white_space (source_code : String) : String :=
  if !(pyEndsWith source_code "\n") then source_code ++ "\n" else source_code

/-- Split a character list at newline characters. -/
def splitOnNl : List Char → List (List Char)
  | [] => [[]]
  | c :: rest =>
      if c = nlChar then [] :: splitOnNl rest
      else
        match splitOnNl rest with
        | [] => [[c]]
        | g :: gs => (c :: g) :: gs

/--
Python `str.splitlines` for newline-separated text: split at newlines and
drop the final empty piece produced by a trailing newline (the source text
handled here uses only the newline line boundary).
-/
def pySplitlines (s : String) : List String :=
  let parts := (splitOnNl s.data).map (fun l => String.mk l)
  if parts.getLast? = some "" then parts.dropLast else parts

/-- Python `"\x5cn".join(lines)`. -/
def joinNl : List String → String
  | [] => ""
  | [l] => l
  | l :: ls => l ++ "\n" ++ joinNl ls

/--
`handle_decorator_spaces`: drop every line that is empty and directly
follows a line whose stripped text starts with `@`.  (Python indexes
`lines[i + 1]` unguarded and raises `IndexError` when a decorator line is
last; the model reads a non-empty sentinel there.)
-/
def handle_decorator_spaces (source_code : String) : String :=
  let lines := pySplitlines source_code
  let lines_to_drop := (lines.enum.filter (fun p =>
      pyStartsWith (pyStrip p.2) "@" && lines.getD (p.1 + 1) "#" = "")).map (fun p => p.1 + 1)
  let kept := (lines.enum.filter (fun p => !(lines_to_drop.contains p.1))).map (fun p => p.2)
  joinNl kept

/-- The ordered handler list of edge_cases.py. -/
def handlers : List (String → String) :=
  [handle_if_name_main, handle_last_line_white_space, handle_decorator_spaces]

/-- `handle_edge_cases`: apply each handler in order. -/
def handle_edge_cases (source_code : String) : String :=
  handlers.foldl (fun s h => h s) source_code

/--
C8 counterexample: the pipeline output does not end with exactly one
newline: on the input `x` (no trailing newline) the appended newline is
removed again by the final decorator-space handler, leaving no trailing
newline at all, and a run of three trailing newlines is reduced to two,
not to one.
-/
theorem handle_edge_cases_trailing_newline_counterexample :
    handle_edge_cases "x" = "x"
    ∧ pyEndsWith (handle_edge_cases "x") "\n" = false
    ∧ handle_edge_cases "a\n\n\n" = "a\n\n" := by
  refine ⟨by rfl, by decide, by rfl⟩

/--
C8 amended: the middle stage `handle_last_line_white_space` guarantees at
least one trailing newline, appending one exactly when missing, and does
not reduce runs of trailing newlines; the subsequent
`handle_decorator_spaces` stage re-joins the split lines and discards one
trailing newline, so `handle_edge_cases` as a whole does not ensure a
single trailing newline.
-/
theorem handle_last_line_white_space_guarantee :
    (∀ s : String, pyEndsWith (handle_last_line_white_space s) "\n" = true)
    ∧ handle_last_line_white_space "a\n\n" = "a\n\n" := by
  constructor
  · intro s
    by_cases h : pyEndsWith s "\n" = true
    · simp [handle_last_line_white_space, h]
    · have hb : pyEndsWith s "\n" = false := by simpa using h
      simp only [handle_last_line_white_space, hb, Bool.not_false, if_pos]
      show pyEndsWith (s ++ "\n") "\n" = true
      unfold pyEndsWith
      rw [String.data_append]
      have e1 : ("\n" : String).data = [nlChar] := by decide
      rw [e1]
      rw [List.isSuffixOf_iff_suffix]
      exact List.suffix_append s.data [nlChar]
  · rfl

-- -------------------------------------------------------------------------
-- src/csort/decorators.py : AST decorator identifier extraction (C9)
-- -------------------------------------------------------------------------

/--
An AST decorator expression: a bare name (`ast.Name` with its `id`), a
dotted attribute (`ast.Attribute` with its `attr`), a call whose callee may
or may not be a node with an `id` attribute (`ast.Call`), or any other
expression shape, which the description factory does not know.
-/
inductive DecoratorAst where
  | name_node (id : String)
  | attribute_node (attr : String)
  | call_node (func_id : Option String)
  | other_node
  deriving DecidableEq, Repr

/-- The Python exceptions the extraction functions can raise. -/
inductive PyError where
  | attribute_error (msg : String)
  | type_error (msg : String)
  deriving DecidableEq, Repr

/-- `decorator_call_id`: the callee id of a call decorator, or an `AttributeError`. -/
def decorator_call_id (func_id : Option String) : Except PyError String :=
  match func_id with
  | some i => Except.ok i
  | none => Except.error (PyError.attribute_error
      "decorator of type ast.Call does not have func attribute with id attribute!")

/-- `get_decorator_id`: dispatch on the expression shape via the description factory. -/
def get_decorator_id : DecoratorAst → Except PyError String
  | .name_node i => Except.ok i
  | .attribute_node a => Except.ok a
  | .call_node f => decorator_call_id f
  | .other_node => Except.error (PyError.type_error "Unexpected type!")

/--
An AST statement as `get_decorators` distinguishes them: an
`ast.FunctionDef` with its decorator expressions, or any other statement
kind.
-/
inductive StmtAst where
  | function_def_node (name : String) (decorator_list : List DecoratorAst)
  | non_function (kind : String)
  deriving DecidableEq, Repr

/-- Whether the statement is an `ast.FunctionDef`. -/
def StmtAst.isFunctionDef : StmtAst → Bool
  | .function_def_node _ _ => true
  | .non_function _ => false

/--
`get_decorators` (AST path): `None` unless the node is a function
definition; for a function, extract the identifier of every decorator in
order (the first failing extraction raises), sorting the result when
requested.
-/
def extract_decorator_ids : List DecoratorAst → Except PyError (List String)
  | [] => Except.ok []
  | d :: rest =>
      match get_decorator_id d with
      | Except.error e => Except.error e
      | Except.ok i =>
          match extract_decorator_ids rest with
          | Except.error e => Except.error e
          | Except.ok rest_ids => Except.ok (i :: rest_ids)

def get_decorators_ast (m : StmtAst) (sort : Bool) : Option (Except PyError (List String)) :=
  match m with
  | .function_def_node _ decs =>
      some (match extract_decorator_ids decs with
        | Except.error e => Except.error e
        | Except.ok ids => Except.ok (if sort then order_decorators ids else ids))
  | .non_function _ => none

/--
C9: `get_decorators` returns `None` exactly on nodes that are not function
definitions; a call decorator whose callee has no resolvable `id` makes
`decorator_call_id` raise an `AttributeError`; and a function definition
carrying such a decorator makes the whole extraction raise rather than
silently skip the decorator.
-/
theorem get_decorators_none_iff_and_call_error :
    (∀ (m : StmtAst) (s : Bool),
        get_decorators_ast m s = none ↔ m.isFunctionDef = false)
    ∧ (∃ msg, decorator_call_id none = Except.error (PyError.attribute_error msg))
    ∧ (∀ (n : String) (ds : List DecoratorAst) (s : Bool),
        DecoratorAst.call_node none ∈ ds →
        ∃ e, get_decorators_ast (StmtAst.function_def_node n ds) s =
          some (Except.error e)) := by
  refine ⟨?_, ⟨_, rfl⟩, ?_⟩
  · intro m s
    cases m <;> simp [get_decorators_ast, StmtAst.isFunctionDef]
  · intro n ds s hmem
    simp only [get_decorators_ast, Option.some.injEq]
    have herr : ∀ ds : List DecoratorAst, DecoratorAst.call_node none ∈ ds →
        ∃ e, extract_decorator_ids ds = Except.error e := by
      intro ds
      induction ds with
      | nil => intro h; cases h
      | cons d rest ih =>
          intro h
          cases hd : get_decorator_id d with
          | error e => exact ⟨e, by simp [extract_decorator_ids, hd]⟩
          | ok i =>
              rcases List.mem_cons.mp h with heq | hmem2
              · rw [← heq] at hd
                simp [get_decorator_id, decorator_call_id] at hd
              · obtain ⟨e, he⟩ := ih hmem2
                exact ⟨e, by simp [extract_decorator_ids, hd, he]⟩
    obtain ⟨e, he⟩ := herr ds hmem
    exact ⟨e, by simp [he]⟩

/-- Witness for C9 on a concrete bad call decorator inside a decorator list. -/
theorem get_decorators_none_iff_and_call_error_witness :
    (DecoratorAst.call_node none ∈
        [DecoratorAst.name_node "wraps", DecoratorAst.call_node none])
    ∧ ∃ e, get_decorators_ast
        (StmtAst.function_def_node "run"
          [DecoratorAst.name_node "wraps", DecoratorAst.call_node none]) false =
        some (Except.error e) :=
  ⟨by decide,
    get_decorators_none_iff_and_call_error.2.2 "run"
      [DecoratorAst.name_node "wraps", DecoratorAst.call_node none] false (by decide)⟩

-- -------------------------------------------------------------------------
-- src/csort/decorators.py : StaticMethodChecker (C4, C10)
-- -------------------------------------------------------------------------

/--
`StaticMethodChecker._check_for_static` on a function definition: not
already `staticmethod`, not `abstractmethod`, the receiver `self` among the
declared parameters, and the text `self` nowhere in the serialized body.
-/
def check_for_static (decorators params : List String) (body_code : String) : Bool :=
  !(decorators.contains "staticmethod") && !(decorators.contains "abstractmethod")
    && params.contains "self" && !(pyContainsStr body_code "self")

/--
`StaticMethodChecker._make_static_ast`: append a `staticmethod` decorator
to the existing decorator list and remove `self` from the parameters.
-/
def make_static_ast : Member → Member
  | .function_def n decs ps b =>
      .function_def n (decs ++ ["staticmethod"]) (ps.filter (fun p => p ≠ "self")) b
  | m => m

/--
`StaticMethodChecker._make_static_cst`: replace the decorator tuple with
the single `staticmethod` decorator (`with_changes(decorators=...)`
discards any existing decorators) and remove `self` from the parameters.
-/
def make_static_cst : Member → Member
  | .function_def n _ ps b =>
      .function_def n ["staticmethod"] (ps.filter (fun p => p ≠ "self")) b
  | m => m

/--
`StaticMethodChecker._staticise` (CST backend): a non-function member is
returned unchanged; a function is rewritten when `_check_for_static`
holds.
-/
def staticise : Member → Member
  | .function_def n decs ps b =>
      if check_for_static decs ps b then make_static_cst (.function_def n decs ps b)
      else .function_def n decs ps b
  | m => m

/-- Whether `_staticise` takes the rewrite branch (used for the per-class counter). -/
def would_staticise : Member → Bool
  | .function_def _ decs ps b => check_for_static decs ps b
  | _ => false

/--
`StaticMethodChecker.staticise_classes`: apply `_staticise` to every member
of every class list, keeping the class names.
-/
def staticise_classes (class_dict : List (String × List Member)) :
    List (String × List Member) :=
  class_dict.map (fun p => (p.1, p.2.map staticise))

/--
The `class_static_method_counts` produced by `staticise_classes`: per
class, the number of members the rewrite branch fired on.
-/
def class_static_method_counts (class_dict : List (String × List Member)) :
    List (String × Nat) :=
  class_dict.map (fun p => (p.1, (p.2.filter would_staticise).length))

/--
C4 counterexample: the CST rewriter does not append the `staticmethod`
decorator to the existing decorator list — it replaces the whole list, so
an existing decorator (`log`) is dropped from the rewritten member instead
of being preserved.
-/
theorem make_static_cst_drops_decorators_counterexample :
    staticise ( Member.function_def "run" ["log"] ["self", "x"] "return x")
        = Member.function_def "run" ["staticmethod"] ["x"] "return x"
    ∧ staticise ( Member.function_def "run" ["log"] ["self", "x"] "return x")
        ≠ Member.function_def "run" ["log", "staticmethod"] ["x"] "return x" := by
  constructor
  · rfl
  · intro h
    rw [show staticise ( Member.function_def "run" ["log"] ["self", "x"] "return x")
        = Member.function_def "run" ["staticmethod"] ["x"] "return x" from rfl] at h
    simp at h

/--
C4 amended: for a member not decorated `staticmethod` or `abstractmethod`,
the auto-static pass rewrites it exactly when `self` is among its declared
parameters and `self` does not occur in the serialized body text; the
rewrite removes the receiver parameter, the AST rewriter appends
`staticmethod` to the existing decorator list, but the CST rewriter
replaces the decorator list with just `staticmethod`, dropping existing
decorators; members mentioning the receiver are untouched, and the
per-class counter counts exactly the rewritten members.
-/
theorem staticise_rewrite_characterisation :
    (∀ (decs ps : List String) (b : String),
        decs.contains "staticmethod" = false → decs.contains "abstractmethod" = false →
        check_for_static decs ps b = (ps.contains "self" && !(pyContainsStr b "self")))
    ∧ (∀ (n b : String) (decs ps : List String), check_for_static decs ps b = true →
        staticise (Member.function_def n decs ps b)
          = Member.function_def n ["staticmethod"] (ps.filter (fun p => p ≠ "self")) b
        ∧ make_static_ast (Member.function_def n decs ps b)
          = Member.function_def n (decs ++ ["staticmethod"]) (ps.filter (fun p => p ≠ "self")) b)
    ∧ (∀ (n b : String) (decs ps : List String), check_for_static decs ps b = false →
        staticise (Member.function_def n decs ps b) = Member.function_def n decs ps b)
    ∧ (∀ (cname : String) (ms : List Member), class_static_method_counts [(cname, ms)]
        = [(cname, (ms.filter would_staticise).length)]) := by
  refine ⟨?_, ?_, ?_, ?_⟩
  · intro decs ps b h1 h2
    unfold check_for_static
    rw [h1, h2]
    rfl
  · intro n b decs ps hc
    exact ⟨by simp [staticise, hc, make_static_cst], by simp [make_static_ast]⟩
  · intro n b decs ps hc
    simp [staticise, hc]
  · intro cname ms
    simp [class_static_method_counts]

/-- Witness for the amended C4 on a concrete rewritable method. -/
theorem staticise_rewrite_characterisation_witness :
    (check_for_static ["log"] ["self", "x"] "return x" = true)
    ∧ (staticise ( Member.function_def "go" ["log"] ["self", "x"] "return x")
        = Member.function_def "go" ["staticmethod"] ["x"] "return x") := by
  refine ⟨by decide, ?_⟩
  have h := (staticise_rewrite_characterisation.2.1 "go" "return x" ["log"] ["self", "x"]
    (by decide)).1
  rw [h]
  rfl

/--
C10: `staticise_classes` keeps exactly the class names of its input, maps
every class to a member list of the same length, and returns every
non-function member unchanged at its position; only function definitions
can differ.
-/
theorem staticise_classes_frame (cd : List (String × List Member)) :
    (staticise_classes cd).map Prod.fst = cd.map Prod.fst
    ∧ (staticise_classes cd).map (fun p => p.2.length) = cd.map (fun p => p.2.length)
    ∧ (∀ (i j : Nat) (m : Member),
        ((cd[i]?).bind (fun p : String × List Member => p.2[j]?)) = some m →
        Member.is_function_def m = false →
        (((staticise_classes cd)[i]?).bind (fun p : String × List Member => p.2[j]?)) = some m) := by
  refine ⟨?_, ?_, ?_⟩
  · simp [staticise_classes]
  · simp [staticise_classes, List.map_map, Function.comp, List.length_map]
  · intro i j m hm hf
    cases hi : cd[i]? with
    | none => rw [hi] at hm; simp at hm
    | some p =>
        rw [hi] at hm
        change p.2[j]? = some m at hm
        have hsi : (staticise_classes cd)[i]? = some (p.1, p.2.map staticise) := by
          rw [staticise_classes, List.getElem?_map, hi]
          rfl
        rw [hsi]
        change (p.2.map staticise)[j]? = some m
        rw [List.getElem?_map, hm]
        have hid : staticise m = m := by
          cases m <;> first
            | rfl
            | (simp [Member.is_function_def] at hf)
        simp [hid]

/-- Witness for C10 at a concrete class dictionary. -/
theorem staticise_classes_frame_witness :
    ((([("A", [Member.ann_assign "x", Member.function_def "f" [] ["self"] "pass"])]
        : List (String × List Member))[0]?).bind
          (fun p : String × List Member => p.2[0]?)
      = some (Member.ann_assign "x"))
    ∧ Member.is_function_def (Member.ann_assign "x") = false
    ∧ ((((staticise_classes
        [("A", [Member.ann_assign "x", Member.function_def "f" [] ["self"] "pass"])])[0]?).bind
          (fun p : String × List Member => p.2[0]?)) = some (Member.ann_assign "x")) :=
  ⟨by rfl, by rfl,
    (staticise_classes_frame
      [("A", [Member.ann_assign "x", Member.function_def "f" [] ["self"] "pass"])]).2.2
      0 0 (Member.ann_assign "x") (by rfl) (by rfl)⟩

/-- Witness for C1 at a concrete two-member class body under the default configuration. -/
theorem order_class_functions_sorted_by_key_witness :
    MixedTiesFree default_config
        [ Member.function_def "beta" [] ["self"] "pass", Member.ann_assign "alpha"]
      ∧ ((((order_class_functions default_config
            [ Member.function_def "beta" [] ["self"] "pass", Member.ann_assign "alpha"]
            true).map Ordered.node).Pairwise
          (fun a b => memberLe default_config a b = true))
        ∧ (((order_class_functions default_config
            [ Member.function_def "beta" [] ["self"] "pass", Member.ann_assign "alpha"]
            true).map Ordered.node).Pairwise
          (fun a b => (describe_method default_config a).level
              ≤ (describe_method default_config b).level))) :=
  ⟨by decide,
    order_class_functions_sorted_by_key default_config
      [ Member.function_def "beta" [] ["self"] "pass", Member.ann_assign "alpha"]
      (by decide)⟩

-- -------------------------------------------------------------------------
-- src/csort/formatting.py : format_csort (C2, C3)
-- -------------------------------------------------------------------------

mutual

/--
Flattening of one ordered entry back into a member: the singleton dict
built for a class-holding member is spliced into the class node with its
recursively flattened components.  Modelled from the spec (section 4.5,
steps 5 and 7): the current `update_node` receives the recursively ordered
component list and splices each member list into its node; non-class nodes
cannot be wrapped in this model.
-/
def flattenO : Ordered → Member
  | .stmt m => m
  | .clsNode m inner =>
      match m with
      | .class_def n _ => .class_def n (flattenList inner)
      | other => other

/-- Flattening of an ordered component list. -/
def flattenList : List Ordered → List Member
  | [] => []
  | o :: os => flattenO o :: flattenList os

end

/-- One entry of the class-discovery dictionary: name, node and body index. -/
structure ClassEntry where
  name : String
  node : Member
  index : Nat

/-- Python dict insertion: replace the value at an existing key in place, else append. -/
def upsertClass : List ClassEntry → ClassEntry → List ClassEntry
  | [], e => [e]
  | c :: cs, e => if c.name = e.name then e :: cs else c :: upsertClass cs e

/-- The enumeration underlying `find_classes`. -/
def find_classes_go : Nat → List Member → List ClassEntry → List ClassEntry
  | _, [], acc => acc
  | i, m :: rest, acc =>
      match m with
      | .class_def n b => find_classes_go (i + 1) rest (upsertClass acc ⟨n, .class_def n b, i⟩)
      | _ => find_classes_go (i + 1) rest acc

/--
`find_classes` (cst backend): the dictionary mapping each top-level class
name to its node and body index; a duplicate name keeps the first insertion
position and takes the last node and index.
-/
def find_classes (module : List Member) : List ClassEntry :=
  find_classes_go 0 module []

/-- Name lookup in the class dictionary. -/
def lookupClass (classes : List ClassEntry) (n : String) : Option Member :=
  (classes.find? (fun c => c.name == n)).map (fun c => c.node)

/-- Name lookup in the sorted-functions dictionary. -/
def lookupOrdered (sorted : List (String × List Ordered)) (n : String) : List Ordered :=
  ((sorted.find? (fun p => p.1 == n)).map Prod.snd).getD []

/-- Name lookup in the functions dictionary. -/
def lookupFunctions (functions : List (String × List Member)) (n : String) : List Member :=
  ((functions.find? (fun p => p.1 == n)).map Prod.snd).getD []

/--
`update_node` (cst backend): splice the ordered component list into the
class node (`with_changes` on the indented block); the current revision
receives the recursively ordered list, whose class entries are flattened
into their updated nodes (spec section 4.5 step 7).  A non-class node
raises a `TypeError` in the source and is returned unchanged here
(unreachable: `find_classes` collects only class definitions).
-/
def update_node (node : Member) (components : List Ordered) : Member :=
  match node with
  | .class_def n _ => .class_def n (flattenList components)
  | m => m

/-- Replacement of every class definition by the node registered under its name. -/
def replaceCls (f : String → Option Member) : Member → Member
  | .class_def n b => (f n).getD (.class_def n b)
  | m => m

/--
`update_module` (cst backend): every class definition of the module body is
replaced by the updated node stored under its name (a `KeyError` cannot
occur because `find_classes` registered every class name; the model keeps
the original node in that unreachable case).
-/
def update_module (module : List Member) (classes : List ClassEntry) : List Member :=
  module.map (replaceCls (lookupClass classes))

/-- Python `==` between an original member and one ordered entry: a wrapped class entry is a dict and never equals a node. -/
def pyEqMemberOrdered (m : Member) : Ordered → Bool
  | .stmt m2 => memberEq m m2
  | .clsNode _ _ => false

/-- Python `==` between the original member list and the ordered list of one class. -/
def pyEqMembersOrdered : List Member → List Ordered → Bool
  | [], [] => true
  | m :: ms, o :: os => pyEqMemberOrdered m o && pyEqMembersOrdered ms os
  | _, _ => false

/-- Join a list of strings with a separator (Python `sep.join`). -/
def joinSep (sep : String) : List String → String
  | [] => ""
  | [x] => x
  | x :: xs => x ++ sep ++ joinSep sep xs

/--
Modelled from the spec: `SyntaxTreeDiffGenerator.diff` is absent from the
source tree; per section 4.5 step 8 it renders the old member order against
the new one as transition lines.
-/
def class_diff (old : List Member) (new : List Ordered) : String :=
  joinNl ((old.zip new).map (fun p =>
    get_expression_name p.1 ++ " ---> " ++ get_expression_name p.2.node))

/-- The per-class extraction step of `format_csort` (line 72). -/
def format_functions (module : List Member) : List (String × List Member) :=
  (find_classes module).map (fun c => (c.name, extract_class_components c.node))

/-- The functions dictionary after the optional auto-static pass (lines 74-79). -/
def format_functions_static (module : List Member) (auto_static : Bool) :
    List (String × List Member) :=
  if auto_static then staticise_classes (format_functions module) else format_functions module

/-- The sorted-functions dictionary (lines 81-83). -/
def sorted_functions (cfg : Config) (functions : List (String × List Member)) :
    List (String × List Ordered) :=
  functions.map (fun p => (p.1, order_class_functions cfg p.2 true))

/-- The unchanged check of `format_csort` (line 85). -/
def all_classes_unchanged (cfg : Config) (module : List Member) (auto_static : Bool) : Bool :=
  ((format_functions_static module auto_static).zip
    (sorted_functions cfg (format_functions_static module auto_static))).all
    (fun q => pyEqMembersOrdered q.1.2 q.2.2)

/-- The structured result of `format_csort`; `module` is the tree whose rendering is the output text, and `wrote` records whether an output file was written. -/
structure FormatCsortResult where
  code : Nat
  diff : String
  module : List Member
  wrote : Bool

/--
`format_csort`: discover classes, extract their components, run the
optional auto-static pass, sort every class body; when every class body is
unchanged, short-circuit with code 0, an empty diff, no write and the
module untouched; otherwise splice the sorted bodies back, rebuild the
module, emit the per-class diffs (joined, as in the source, by the literal
`/n/n`) and write when an output path was supplied.
-/
def format_csort (cfg : Config) (module : List Member) (output_supplied : Bool)
    (auto_static : Bool) : FormatCsortResult :=
  let classes := find_classes module
  let functions := format_functions_static module auto_static
  let sorted := sorted_functions cfg functions
  if (functions.zip sorted).all (fun q => pyEqMembersOrdered q.1.2 q.2.2) then
    { code := 0, diff := "", module := module, wrote := false }
  else
    let classes2 := classes.map (fun c =>
      ⟨c.name, update_node c.node (lookupOrdered sorted c.name), c.index⟩)
    { code := 1
      diff := joinSep "/n/n" (functions.map (fun p =>
        "**************\n ***** file *****\n**************\n" ++ "\n ----- " ++ p.1
          ++ " ----- \n" ++ class_diff p.2 (lookupOrdered sorted p.1)))
      module := update_module module classes2
      wrote := output_supplied }

/--
C3: when the code's own structural-equality check succeeds for every
discovered class (each sorted member list compares equal to the original
one), `format_csort` returns code 0 with an empty diff, leaves the module
untouched, and writes no output file even when an output path is supplied
— the early return happens before any diff computation, splicing or
regeneration.
-/
theorem format_csort_short_circuit (cfg : Config) (module : List Member)
    (out auto : Bool) (h : all_classes_unchanged cfg module auto = true) :
    format_csort cfg module out auto =
      { code := 0, diff := "", module := module, wrote := false } := by
  have h2 : ((format_functions_static module auto).zip
      (sorted_functions cfg (format_functions_static module auto))).all
        (fun q => pyEqMembersOrdered q.1.2 q.2.2) = true := h
  simp only [format_csort]
  rw [h2]
  simp

/-- A module whose single class is already correctly ordered. -/
def sorted_example_module : List Member :=
  [ Member.class_def "A" [Member.ann_assign "x", Member.function_def "f" [] ["self"] "pass"]]

/-- Witness for C3 on an already-sorted module with an output path supplied. -/
theorem format_csort_short_circuit_witness :
    all_classes_unchanged default_config sorted_example_module false = true
    ∧ format_csort default_config sorted_example_module true false =
        { code := 0, diff := "", module := sorted_example_module, wrote := false } :=
  ⟨by rfl, format_csort_short_circuit default_config sorted_example_module true false (by rfl)⟩

/-- A module whose single class contains a nested class. -/
def nested_example_module : List Member :=
  [ Member.class_def "A"
    [ Member.class_def "B" [], Member.function_def "__init__" [] ["self"] "pass"]]

/--
C2 counterexample: on a file with a nested class the second run of
`format_csort` does not report code 0 — the sorted member list wraps the
nested class in a dict entry that never compares equal to the original
node, so both runs report changed (code 1), even though the second run
produces the identical module.
-/
theorem format_csort_second_run_counterexample :
    (format_csort default_config nested_example_module true false).code = 1
    ∧ (format_csort default_config
        (format_csort default_config nested_example_module true false).module true
        false).code = 1
    ∧ ¬((format_csort default_config
        (format_csort default_config nested_example_module true false).module true
        false).code = 0)
    ∧ (format_csort default_config
        (format_csort default_config nested_example_module true false).module true
        false).module
      = (format_csort default_config nested_example_module true false).module := by
  refine ⟨by rfl, by rfl, ?_, by rfl⟩
  intro hc
  rw [show (format_csort default_config
      (format_csort default_config nested_example_module true false).module true
      false).code = 1 from rfl] at hc
  exact Nat.one_ne_zero hc

theorem evalPred_class_congr (p : PredTag) (n : String) (b1 b2 : List Member) :
    evalPred p (.class_def n b1) = evalPred p (.class_def n b2) := by
  cases p <;> rfl

theorem levelScan_congr {m1 m2 : Member} (h : ∀ p, evalPred p m1 = evalPred p m2)
    (u : Bool) (d : Nat) :
    ∀ l : List (PredTag × Nat), levelScan m1 u d l = levelScan m2 u d l := by
  intro l
  induction l with
  | nil => rfl
  | cons e rest ih =>
      simp only [levelScan, h e.1, ih]

theorem describe_method_class_congr (cfg : Config) (n : String) (b1 b2 : List Member) :
    describe_method cfg (.class_def n b1) = describe_method cfg (.class_def n b2) := by
  unfold describe_method
  have h1 : get_method_type cfg (.class_def n b1) cfg.use_csort_group =
      get_method_type cfg (.class_def n b2) cfg.use_csort_group :=
    levelScan_congr (fun p => evalPred_class_congr p n b1 b2) _ _ _
  have h2 : get_method_type cfg (.class_def n b1) false =
      get_method_type cfg (.class_def n b2) false :=
    levelScan_congr (fun p => evalPred_class_congr p n b1 b2) _ _ _
  simp only [get_expression_name, get_decorators_m, h1, h2]

/-- The statement list as `update_node` would rebuild it: each ordered entry flattened. -/
def fOne (cfg : Config) (m : Member) : Member :=
  flattenO (orderOne cfg m)

theorem flattenList_eq_map : ∀ os : List Ordered, flattenList os = os.map flattenO
  | [] => rfl
  | o :: os => by simp [flattenList, flattenList_eq_map os]

theorem fOne_nonclass (cfg : Config) {m : Member} (h : Member.is_class m = false) :
    fOne cfg m = m := by
  unfold fOne orderOne
  rw [h, contains_class]
  rfl

theorem fOne_class_def (cfg : Config) (n : String) (b : List Member) :
    fOne cfg (.class_def n b) =
      .class_def n (flattenList (order_class_functions cfg b true)) := by
  unfold fOne orderOne
  rfl

theorem fOne_is_class (cfg : Config) (m : Member) :
    Member.is_class (fOne cfg m) = Member.is_class m := by
  cases hm : Member.is_class m with
  | false => rw [fOne_nonclass cfg hm, hm]
  | true =>
      cases m with
      | class_def n b => rw [fOne_class_def]; rfl
      | expr_ellipsis => simp [Member.is_class] at hm
      | expr_string v => simp [Member.is_class] at hm
      | ann_assign t => simp [Member.is_class] at hm
      | assign t => simp [Member.is_class] at hm
      | function_def a b c d => simp [Member.is_class] at hm

theorem fOne_key (cfg : Config) (m : Member) :
    describe_method cfg (fOne cfg m) = describe_method cfg m := by
  cases hm : Member.is_class m with
  | false => rw [fOne_nonclass cfg hm]
  | true =>
      cases m with
      | class_def n b =>
          rw [fOne_class_def]
          exact describe_method_class_congr cfg n _ b
      | expr_ellipsis => simp [Member.is_class] at hm
      | expr_string v => simp [Member.is_class] at hm
      | ann_assign t => simp [Member.is_class] at hm
      | assign t => simp [Member.is_class] at hm
      | function_def a b c d => simp [Member.is_class] at hm

theorem memberLe_fOne (cfg : Config) (a b : Member) :
    memberLe cfg (fOne cfg a) (fOne cfg b) = memberLe cfg a b := by
  unfold memberLe
  rw [fOne_key, fOne_key]

/-- The flattened output of one ordering pass. -/
theorem flatten_order_eq_map_fOne (cfg : Config) (ms : List Member) :
    flattenList (order_class_functions cfg ms true) =
      (pySorted (memberLe cfg) ms).map (fOne cfg) := by
  rw [order_class_functions_eq, if_pos rfl, flattenList_eq_map, List.map_map]
  rfl

theorem memberLe_total_or (cfg : Config) (a b : Member) :
    memberLe cfg a b = true ∨ memberLe cfg b a = true := by
  rcases keyLe_total (describe_method cfg a) (describe_method cfg b) with h | h
  · exact Or.inl h
  · exact Or.inr h

theorem pairwise_flatten_order (cfg : Config) (ms : List Member) :
    (flattenList (order_class_functions cfg ms true)).Pairwise
      (fun a b => memberLe cfg a b = true) := by
  rw [flatten_order_eq_map_fOne]
  refine List.Pairwise.map (fOne cfg) ?_
      (pairwise_pySorted (memberLe cfg) (memberLe_trans cfg) (memberLe_total_or cfg) ms)
  intro a b hab
  rw [memberLe_fOne]
  exact hab

theorem pySorted_flatten_order (cfg : Config) (ms : List Member) :
    pySorted (memberLe cfg) (flattenList (order_class_functions cfg ms true)) =
      flattenList (order_class_functions cfg ms true) :=
  pySorted_of_pairwise (memberLe cfg) _ (pairwise_flatten_order cfg ms)

theorem fOne_fOne (cfg : Config) : ∀ m : Member, fOne cfg (fOne cfg m) = fOne cfg m := by
  suffices H : ∀ (k : Nat) (m : Member), memberSize m ≤ k →
      fOne cfg (fOne cfg m) = fOne cfg m by
    exact fun m => H (memberSize m) m le_rfl
  intro k
  induction k using Nat.strong_induction_on with
  | _ k ih =>
      intro m hm
      cases hc : Member.is_class m with
      | false => rw [fOne_nonclass cfg hc, fOne_nonclass cfg hc]
      | true =>
          cases m with
          | class_def n b =>
              rw [fOne_class_def, fOne_class_def]
              congr 1
              rw [flatten_order_eq_map_fOne cfg
                  (flattenList (order_class_functions cfg b true)),
                pySorted_flatten_order cfg b,
                flatten_order_eq_map_fOne cfg b, List.map_map]
              apply List.map_congr_left
              intro m2 hm2
              have hmem : m2 ∈ b := (mem_pySorted (memberLe cfg) m2 b).mp hm2
              have hsz : memberSize m2 < memberListSize b := memberSize_lt_of_mem hmem
              have hk : memberSize (Member.class_def n b) = 1 + memberListSize b := by
                simp [memberSize]
              have hlt : memberSize m2 < k := by omega
              show (fOne cfg ∘ fOne cfg) m2 = fOne cfg m2
              show fOne cfg (fOne cfg m2) = fOne cfg m2
              exact ih (memberSize m2) hlt m2 le_rfl
          | expr_ellipsis => simp [Member.is_class] at hc
          | expr_string v => simp [Member.is_class] at hc
          | ann_assign t => simp [Member.is_class] at hc
          | assign t => simp [Member.is_class] at hc
          | function_def a b c d => simp [Member.is_class] at hc

theorem flatten_order_idem (cfg : Config) (ms : List Member) :
    flattenList (order_class_functions cfg
        (flattenList (order_class_functions cfg ms true)) true)
      = flattenList (order_class_functions cfg ms true) := by
  rw [flatten_order_eq_map_fOne cfg (flattenList (order_class_functions cfg ms true)),
    pySorted_flatten_order cfg ms,
    flatten_order_eq_map_fOne cfg ms, List.map_map]
  apply List.map_congr_left
  intro m _
  show fOne cfg (fOne cfg m) = fOne cfg m
  exact fOne_fOne cfg m

theorem staticise_idem (m : Member) : staticise (staticise m) = staticise m := by
  cases m with
  | function_def n d p b =>
      by_cases hc : check_for_static d p b = true
      · simp only [staticise, hc, if_pos, make_static_cst]
        simp [check_for_static]
      · have hcf : check_for_static d p b = false := by simpa using hc
        simp [staticise, hcf]
  | expr_ellipsis => rfl
  | expr_string v => rfl
  | ann_assign t => rfl
  | assign t => rfl
  | class_def n b => rfl

theorem staticise_fOne_fixed (cfg : Config) (m : Member) (h : staticise m = m) :
    staticise (fOne cfg m) = fOne cfg m := by
  cases hc : Member.is_class m with
  | false => rw [fOne_nonclass cfg hc, h]
  | true =>
      cases m with
      | class_def n b => rw [fOne_class_def]; rfl
      | expr_ellipsis => simp [Member.is_class] at hc
      | expr_string v => simp [Member.is_class] at hc
      | ann_assign t => simp [Member.is_class] at hc
      | assign t => simp [Member.is_class] at hc
      | function_def a b c d => simp [Member.is_class] at hc

/-- Node replacement of a class entry under a name-indexed node map. -/
def updNode (f : String → Option Member) (c : ClassEntry) : ClassEntry :=
  ⟨c.name, (f c.name).getD c.node, c.index⟩

theorem upsertClass_map (f : String → Option Member) (e : ClassEntry) :
    ∀ acc : List ClassEntry,
      (upsertClass acc e).map (updNode f) = upsertClass (acc.map (updNode f)) (updNode f e)
  | [] => rfl
  | c :: cs => by
      by_cases h : c.name = e.name
      · simp [upsertClass, h, updNode]
      · have h2 : (updNode f c).name = (updNode f e).name ↔ c.name = e.name := by
          simp [updNode]
        simp [upsertClass, h, upsertClass_map f e cs, updNode]

theorem mem_upsertClass {c e : ClassEntry} : ∀ {acc : List ClassEntry},
    c ∈ upsertClass acc e → c ∈ acc ∨ c = e := by
  intro acc
  induction acc with
  | nil =>
      intro h
      simp [upsertClass] at h
      exact Or.inr h
  | cons d ds ih =>
      intro h
      by_cases hd : d.name = e.name
      · simp only [upsertClass, if_pos hd] at h
        rcases List.mem_cons.mp h with heq | hmem
        · exact Or.inr heq
        · exact Or.inl (List.mem_cons_of_mem d hmem)
      · simp only [upsertClass, if_neg hd] at h
        rcases List.mem_cons.mp h with heq | hmem
        · exact Or.inl (heq ▸ List.mem_cons_self d ds)
        · rcases ih hmem with h1 | h1
          · exact Or.inl (List.mem_cons_of_mem d h1)
          · exact Or.inr h1

theorem names_upsertClass (e : ClassEntry) : ∀ acc : List ClassEntry,
    (upsertClass acc e).map (fun c => c.name) =
      (if e.name ∈ acc.map (fun c => c.name) then acc.map (fun c => c.name)
       else acc.map (fun c => c.name) ++ [e.name])
  | [] => by simp [upsertClass]
  | c :: cs => by
      by_cases h : c.name = e.name
      · simp [upsertClass, h]
      · have hne : ¬e.name = c.name := fun hh => h hh.symm
        by_cases hm : e.name ∈ cs.map (fun c => c.name)
        · simp [upsertClass, h, names_upsertClass e cs, hm, hne]
        · simp [upsertClass, h, names_upsertClass e cs, hm, hne]

theorem nodup_names_upsertClass {e : ClassEntry} {acc : List ClassEntry}
    (h : (acc.map (fun c => c.name)).Nodup) :
    ((upsertClass acc e).map (fun c => c.name)).Nodup := by
  rw [names_upsertClass]
  by_cases hm : e.name ∈ acc.map (fun c => c.name)
  · rw [if_pos hm]; exact h
  · rw [if_neg hm]
    rw [List.nodup_append]
    refine ⟨h, List.nodup_singleton _, ?_⟩
    intro a ha hb
    rw [List.mem_singleton] at hb
    exact hm (hb ▸ ha)

theorem find_classes_go_nodup : ∀ (rest : List Member) (i : Nat) (acc : List ClassEntry),
    (acc.map (fun c => c.name)).Nodup →
    ((find_classes_go i rest acc).map (fun c => c.name)).Nodup := by
  intro rest
  induction rest with
  | nil => intro i acc h; exact h
  | cons m rest ih =>
      intro i acc h
      cases m with
      | class_def n b => exact ih (i + 1) _ (nodup_names_upsertClass h)
      | expr_ellipsis => exact ih (i + 1) acc h
      | expr_string v => exact ih (i + 1) acc h
      | ann_assign t => exact ih (i + 1) acc h
      | assign t => exact ih (i + 1) acc h
      | function_def a b c d => exact ih (i + 1) acc h

theorem find_classes_nodup (module : List Member) :
    ((find_classes module).map (fun c => c.name)).Nodup :=
  find_classes_go_nodup module 0 [] (by simp)

theorem find_classes_go_shape : ∀ (rest : List Member) (i : Nat) (acc : List ClassEntry),
    (∀ c ∈ acc, ∃ b, c.node = Member.class_def c.name b) →
    ∀ c ∈ find_classes_go i rest acc, ∃ b, c.node = Member.class_def c.name b := by
  intro rest
  induction rest with
  | nil => intro i acc h; exact h
  | cons m rest ih =>
      intro i acc h
      cases m with
      | class_def n b =>
          refine ih (i + 1) _ ?_
          intro c hc
          rcases mem_upsertClass hc with h1 | h1
          · exact h c h1
          · exact ⟨b, by rw [h1]⟩
      | expr_ellipsis => exact ih (i + 1) acc h
      | expr_string v => exact ih (i + 1) acc h
      | ann_assign t => exact ih (i + 1) acc h
      | assign t => exact ih (i + 1) acc h
      | function_def a b c d => exact ih (i + 1) acc h

theorem find_classes_shape (module : List Member) :
    ∀ c ∈ find_classes module, ∃ b, c.node = Member.class_def c.name b :=
  find_classes_go_shape module 0 [] (by simp)

theorem find_classes_go_map (f : String → Option Member)
    (hf : ∀ n m, f n = some m → ∃ b, m = Member.class_def n b) :
    ∀ (rest : List Member) (i : Nat) (acc : List ClassEntry),
      find_classes_go i (rest.map (replaceCls f)) (acc.map (updNode f))
        = (find_classes_go i rest acc).map (updNode f) := by
  intro rest
  induction rest with
  | nil => intro i acc; rfl
  | cons m rest ih =>
      intro i acc
      cases m with
      | class_def n b =>
          show find_classes_go i (replaceCls f (.class_def n b) :: rest.map (replaceCls f)) _ = _
          cases hv : f n with
          | none =>
              have h1 : replaceCls f (.class_def n b) = .class_def n b := by
                simp [replaceCls, hv]
              have h2 : updNode f ⟨n, .class_def n b, i⟩ = ⟨n, .class_def n b, i⟩ := by
                simp [updNode, hv]
              rw [h1]
              show find_classes_go (i + 1) (rest.map (replaceCls f))
                  (upsertClass (acc.map (updNode f)) ⟨n, .class_def n b, i⟩) = _
              rw [← h2, ← upsertClass_map, ih]
              rfl
          | some v =>
              obtain ⟨b2, hb2⟩ := hf n v hv
              have h1 : replaceCls f (.class_def n b) = .class_def n b2 := by
                simp [replaceCls, hv, hb2]
              have h2 : updNode f ⟨n, .class_def n b, i⟩ = ⟨n, .class_def n b2, i⟩ := by
                simp [updNode, hv, hb2]
              rw [h1]
              show find_classes_go (i + 1) (rest.map (replaceCls f))
                  (upsertClass (acc.map (updNode f)) ⟨n, .class_def n b2, i⟩) = _
              rw [← h2, ← upsertClass_map, ih]
              rfl
      | expr_ellipsis => exact ih (i + 1) acc
      | expr_string v => exact ih (i + 1) acc
      | ann_assign t => exact ih (i + 1) acc
      | assign t => exact ih (i + 1) acc
      | function_def a b c d => exact ih (i + 1) acc

theorem find_classes_map (f : String → Option Member)
    (hf : ∀ n m, f n = some m → ∃ b, m = Member.class_def n b) (module : List Member) :
    find_classes (module.map (replaceCls f)) = (find_classes module).map (updNode f) :=
  find_classes_go_map f hf module 0 []

theorem find?_self_of_nodup : ∀ (l : List ClassEntry),
    (l.map (fun c => c.name)).Nodup →
    ∀ c ∈ l, l.find? (fun d => d.name == c.name) = some c := by
  intro l
  induction l with
  | nil => intro _ c hc; cases hc
  | cons d ds ih =>
      intro hnd c hc
      rw [List.map_cons, List.nodup_cons] at hnd
      rcases List.mem_cons.mp hc with heq | hmem
      · rw [heq]
        simp [List.find?]
      · have hne : d.name ≠ c.name := by
          intro hdc
          exact hnd.1 (hdc ▸ List.mem_map_of_mem (fun c => c.name) hmem)
        have : (d.name == c.name) = false := by simpa using hne
        simp only [List.find?, this]
        exact ih hnd.2 c hmem

theorem find?_map_keyed {β : Type} (g : ClassEntry → β) (p : β → Bool)
    (q : ClassEntry → Bool) (h : ∀ c, p (g c) = q c) :
    ∀ l : List ClassEntry, (l.map g).find? p = (l.find? q).map g := by
  intro l
  induction l with
  | nil => rfl
  | cons c cs ih =>
      simp only [List.map_cons, List.find?, h c]
      cases q c with
      | true => rfl
      | false => exact ih

mutual

theorem memberEq_refl : ∀ m : Member, memberEq m m = true
  | .expr_ellipsis => rfl
  | .expr_string v => by simp [memberEq]
  | .ann_assign t => by simp [memberEq]
  | .assign t => by simp [memberEq]
  | .function_def n d p b => by simp [memberEq]
  | .class_def n b => by simp [memberEq, memberListEq_refl b]

theorem memberListEq_refl : ∀ ms : List Member, memberListEq ms ms = true
  | [] => rfl
  | m :: ms => by simp [memberListEq, memberEq_refl m, memberListEq_refl ms]

end

/-- The optional auto-static rewrite of one member list (lines 74-79). -/
def staticOpt : Bool → List Member → List Member
  | true, l => l.map staticise
  | false, l => l

/-- The member list of one class entry as the sorting stage receives it. -/
def stageList (auto : Bool) (c : ClassEntry) : List Member :=
  staticOpt auto (extract_class_components c.node)

/-- The member list of one class after one full sort-and-splice round. -/
def roundList (cfg : Config) (auto : Bool) (c : ClassEntry) : List Member :=
  flattenList (order_class_functions cfg (stageList auto c) true)

/-- The class entry after the splice of the first run. -/
def updEntry (cfg : Config) (auto : Bool) (c : ClassEntry) : ClassEntry :=
  ⟨c.name, Member.class_def c.name (roundList cfg auto c), c.index⟩

theorem format_functions_static_eq (module : List Member) (auto : Bool) :
    format_functions_static module auto =
      (find_classes module).map (fun c => (c.name, stageList auto c)) := by
  cases auto with
  | false =>
      simp only [format_functions_static, format_functions, if_neg]
      rfl
  | true =>
      show staticise_classes ((find_classes module).map
        (fun c => (c.name, extract_class_components c.node))) = _
      simp [staticise_classes, List.map_map, stageList, staticOpt]

theorem pyEq_orderOne_of_nonclass (cfg : Config) :
    ∀ l : List Member, (∀ m ∈ l, Member.is_class m = false) →
      pyEqMembersOrdered l (l.map (orderOne cfg)) = true
  | [], _ => rfl
  | m :: ms, h => by
      have hm : Member.is_class m = false := h m (List.mem_cons_self m ms)
      have h1 : orderOne cfg m = Ordered.stmt m := by
        simp [orderOne, hm, contains_class]
      simp [pyEqMembersOrdered, h1, pyEqMemberOrdered, memberEq_refl m,
        pyEq_orderOne_of_nonclass cfg ms (fun x hx => h x (List.mem_cons_of_mem m hx))]

theorem staticise_is_class (m : Member) :
    Member.is_class (staticise m) = Member.is_class m := by
  cases m with
  | function_def n d p b =>
      by_cases hc : check_for_static d p b = true
      · simp [staticise, hc, make_static_cst, Member.is_class]
      · have hcf : check_for_static d p b = false := by simpa using hc
        simp [staticise, hcf]
  | expr_ellipsis => rfl
  | expr_string v => rfl
  | ann_assign t => rfl
  | assign t => rfl
  | class_def n b => rfl

theorem replaceCls_idem (f : String → Option Member)
    (hf : ∀ n m, f n = some m → ∃ b, m = Member.class_def n b) (m : Member) :
    replaceCls f (replaceCls f m) = replaceCls f m := by
  cases m with
  | class_def n b =>
      cases hv : f n with
      | none => simp [replaceCls, hv]
      | some w =>
          obtain ⟨b2, hb2⟩ := hf n w hv
          simp [replaceCls, hv, hb2]
  | expr_ellipsis => rfl
  | expr_string v => rfl
  | ann_assign t => rfl
  | assign t => rfl
  | function_def a b c d => rfl

theorem lookupOrdered_keyed (h2 : ClassEntry → List Ordered) (fc : List ClassEntry)
    (n : String) :
    lookupOrdered (fc.map (fun c => (c.name, h2 c))) n =
      ((fc.find? (fun c => c.name == n)).map h2).getD [] := by
  unfold lookupOrdered
  rw [find?_map_keyed (fun c => (c.name, h2 c)) (fun p => p.1 == n)
    (fun c => c.name == n) (fun c => rfl) fc]
  cases fc.find? (fun c => c.name == n) <;> rfl

theorem lookupOrdered_sorted_general (cfg : Config) (fc : List ClassEntry)
    (hnd : (fc.map (fun c => c.name)).Nodup) (g : ClassEntry → List Member)
    (c : ClassEntry) (hc : c ∈ fc) :
    lookupOrdered (sorted_functions cfg (fc.map (fun d => (d.name, g d)))) c.name
      = order_class_functions cfg (g c) true := by
  have h1 : sorted_functions cfg (fc.map (fun d => (d.name, g d)))
      = fc.map (fun d => (d.name, order_class_functions cfg (g d) true)) := by
    simp [sorted_functions, List.map_map]
  rw [h1, lookupOrdered_keyed, find?_self_of_nodup fc hnd c hc]
  rfl

theorem map_update_entries (cfg : Config) (fc : List ClassEntry)
    (hnd : (fc.map (fun c => c.name)).Nodup)
    (hshape : ∀ c ∈ fc, ∃ b, c.node = Member.class_def c.name b)
    (g : ClassEntry → List Member) :
    fc.map (fun c => (⟨c.name, update_node c.node
        (lookupOrdered (sorted_functions cfg (fc.map (fun d => (d.name, g d)))) c.name),
        c.index⟩ : ClassEntry))
      = fc.map (fun c => (⟨c.name,
          Member.class_def c.name (flattenList (order_class_functions cfg (g c) true)),
          c.index⟩ : ClassEntry)) := by
  apply List.map_congr_left
  intro c hc
  obtain ⟨b, hb⟩ := hshape c hc
  rw [lookupOrdered_sorted_general cfg fc hnd g c hc, hb]
  rfl

theorem lookupClass_updEntry (cfg : Config) (auto : Bool) (module : List Member)
    (n : String) :
    lookupClass ((find_classes module).map (updEntry cfg auto)) n =
      ((find_classes module).find? (fun c => c.name == n)).map
        (fun c => Member.class_def c.name (roundList cfg auto c)) := by
  unfold lookupClass
  rw [find?_map_keyed (updEntry cfg auto) (fun d => d.name == n)
    (fun c => c.name == n) (fun c => rfl) (find_classes module)]
  cases (find_classes module).find? (fun c => c.name == n) <;> rfl

theorem lookupClass_updEntry_shape (cfg : Config) (auto : Bool) (module : List Member) :
    ∀ n m, lookupClass ((find_classes module).map (updEntry cfg auto)) n = some m →
      ∃ b, m = Member.class_def n b := by
  intro n m h
  rw [lookupClass_updEntry] at h
  cases hf : (find_classes module).find? (fun c => c.name == n) with
  | none => rw [hf] at h; cases h
  | some c =>
      rw [hf] at h
      have hn : c.name = n := by
        have h2 := List.find?_some hf
        simpa using h2
      have h2 : some (Member.class_def c.name (roundList cfg auto c)) = some m := h
      exact ⟨roundList cfg auto c, by rw [← Option.some.inj h2, hn]⟩

theorem find_classes_module2 (cfg : Config) (module : List Member) (auto : Bool) :
    find_classes (update_module module ((find_classes module).map (updEntry cfg auto)))
      = (find_classes module).map (updEntry cfg auto) := by
  rw [update_module,
    find_classes_map _ (lookupClass_updEntry_shape cfg auto module)]
  apply List.map_congr_left
  intro c hc
  unfold updNode
  rw [lookupClass_updEntry, find?_self_of_nodup _ (find_classes_nodup module) c hc]
  rfl

theorem staticOpt_roundList (cfg : Config) (auto : Bool) (c : ClassEntry) :
    staticOpt auto (roundList cfg auto c) = roundList cfg auto c := by
  cases auto with
  | false => rfl
  | true =>
      show (roundList cfg true c).map staticise = roundList cfg true c
      unfold roundList
      rw [flatten_order_eq_map_fOne, List.map_map]
      apply List.map_congr_left
      intro y hy
      have hy2 : y ∈ stageList true c := (mem_pySorted _ y _).mp hy
      have hfix : staticise y = y := by
        obtain ⟨z, _, hz⟩ := List.mem_map.mp hy2
        rw [← hz, staticise_idem]
      show staticise (fOne cfg y) = fOne cfg y
      exact staticise_fOne_fixed cfg y hfix

theorem roundList_nonclass (cfg : Config) (auto : Bool) (c : ClassEntry)
    (h : ∀ m ∈ extract_class_components c.node, Member.is_class m = false) :
    ∀ x ∈ roundList cfg auto c, Member.is_class x = false := by
  intro x hx
  unfold roundList at hx
  rw [flatten_order_eq_map_fOne] at hx
  obtain ⟨y, hy, hxy⟩ := List.mem_map.mp hx
  have hy2 : y ∈ stageList auto c := (mem_pySorted _ y _).mp hy
  have hy3 : Member.is_class y = false := by
    cases auto with
    | false => exact h y hy2
    | true =>
        obtain ⟨z, hz, hzy⟩ := List.mem_map.mp hy2
        rw [← hzy, staticise_is_class]
        exact h z hz
  rw [← hxy, fOne_is_class]
  exact hy3

theorem zip_map_self {α β γ : Type} (f : α → β) (g : α → γ) :
    ∀ l : List α, (l.map f).zip (l.map g) = l.map (fun x => (f x, g x))
  | [] => rfl
  | x :: xs => by simp [zip_map_self f g xs]

theorem all_map_eval {α β : Type} (f : α → β) (p : β → Bool) :
    ∀ l : List α, (l.map f).all p = l.all (fun x => p (f x))
  | [] => rfl
  | x :: xs => by simp [all_map_eval f p xs]

theorem format_csort_unchanged_eq (cfg : Config) (module : List Member) (out auto : Bool)
    (h : all_classes_unchanged cfg module auto = true) :
    format_csort cfg module out auto =
      { code := 0, diff := "", module := module, wrote := false } := by
  have h2 : ((format_functions_static module auto).zip
      (sorted_functions cfg (format_functions_static module auto))).all
        (fun q => pyEqMembersOrdered q.1.2 q.2.2) = true := h
  simp only [format_csort]
  rw [h2]
  simp

theorem format_csort_module_changed (cfg : Config) (module : List Member) (out auto : Bool)
    (h : all_classes_unchanged cfg module auto = false) :
    (format_csort cfg module out auto).module =
      update_module module ((find_classes module).map (fun c =>
        (⟨c.name, update_node c.node
          (lookupOrdered (sorted_functions cfg (format_functions_static module auto))
            c.name),
          c.index⟩ : ClassEntry))) := by
  have h2 : ((format_functions_static module auto).zip
      (sorted_functions cfg (format_functions_static module auto))).all
        (fun q => pyEqMembersOrdered q.1.2 q.2.2) = false := h
  simp only [format_csort]
  rw [h2]
  simp

/--
C2 (amended): `format_csort` is idempotent on the module tree — the second
run always reproduces the module of the first run byte for byte; but the
second run reports no change (code 0) only when no discovered class
contains a nested class, because the unchanged check compares each original
member list against a sorted list in which every nested class is wrapped in
a dict entry that never compares equal to a node.
-/
theorem format_csort_idempotent (cfg : Config) (module : List Member) (out auto : Bool) :
    (format_csort cfg (format_csort cfg module out auto).module out auto).module
      = (format_csort cfg module out auto).module
    ∧ ((∀ c ∈ find_classes module, ∀ m ∈ extract_class_components c.node,
          Member.is_class m = false) →
        (format_csort cfg (format_csort cfg module out auto).module out auto).code = 0) := by
  by_cases hchk : all_classes_unchanged cfg module auto = true
  · have h1 : format_csort cfg module out auto =
        { code := 0, diff := "", module := module, wrote := false } :=
      format_csort_unchanged_eq cfg module out auto hchk
    rw [h1]
    show (format_csort cfg module out auto).module = module
      ∧ (_ → (format_csort cfg module out auto).code = 0)
    exact ⟨by rw [h1], fun _ => by rw [h1]⟩
  · have hch1 : all_classes_unchanged cfg module auto = false := by
      cases h : all_classes_unchanged cfg module auto with
      | false => rfl
      | true => exact absurd h hchk
    have hnd := find_classes_nodup module
    have hshape := find_classes_shape module
    have hm1 : (format_csort cfg module out auto).module
        = update_module module ((find_classes module).map (updEntry cfg auto)) := by
      rw [format_csort_module_changed cfg module out auto hch1]
      congr 1
      rw [format_functions_static_eq module auto,
        map_update_entries cfg (find_classes module) hnd hshape (stageList auto)]
      apply List.map_congr_left
      intro c hc
      rfl
    have hnd2 : (((find_classes module).map (updEntry cfg auto)).map
        (fun c => c.name)).Nodup := by
      rw [List.map_map]
      exact hnd
    have hshape2 : ∀ c2 ∈ (find_classes module).map (updEntry cfg auto),
        ∃ b, c2.node = Member.class_def c2.name b := by
      intro c2 hc2
      obtain ⟨c, hc, hcc⟩ := List.mem_map.mp hc2
      exact ⟨roundList cfg auto c, by rw [← hcc]; rfl⟩
    have hfc2 := find_classes_module2 cfg module auto
    have hidem : (format_csort cfg
        (update_module module ((find_classes module).map (updEntry cfg auto))) out
        auto).module
        = update_module module ((find_classes module).map (updEntry cfg auto)) := by
      by_cases hch2 : all_classes_unchanged cfg
          (update_module module ((find_classes module).map (updEntry cfg auto))) auto = true
      · rw [format_csort_unchanged_eq cfg _ out auto hch2]
      · have hch2f : all_classes_unchanged cfg
            (update_module module ((find_classes module).map (updEntry cfg auto))) auto
              = false := by
          cases h : all_classes_unchanged cfg
              (update_module module ((find_classes module).map (updEntry cfg auto))) auto
            with
          | false => rfl
          | true => exact absurd h hch2
        rw [format_csort_module_changed cfg _ out auto hch2f]
        rw [format_functions_static_eq
          (update_module module ((find_classes module).map (updEntry cfg auto))) auto]
        rw [hfc2]
        rw [map_update_entries cfg ((find_classes module).map (updEntry cfg auto))
          hnd2 hshape2 (stageList auto)]
        have hKid : ∀ c2 ∈ (find_classes module).map (updEntry cfg auto),
            (fun c => (⟨c.name, Member.class_def c.name
                (flattenList (order_class_functions cfg (stageList auto c) true)),
              c.index⟩ : ClassEntry)) c2 = id c2 := by
          intro c2 hc2
          obtain ⟨c, hc, hcc⟩ := List.mem_map.mp hc2
          rw [← hcc]
          have hstage : stageList auto (updEntry cfg auto c) = roundList cfg auto c := by
            show staticOpt auto (roundList cfg auto c) = roundList cfg auto c
            exact staticOpt_roundList cfg auto c
          show (⟨(updEntry cfg auto c).name, Member.class_def (updEntry cfg auto c).name
              (flattenList (order_class_functions cfg
                (stageList auto (updEntry cfg auto c)) true)),
            (updEntry cfg auto c).index⟩ : ClassEntry) = updEntry cfg auto c
          rw [hstage]
          show (⟨c.name, Member.class_def c.name
              (flattenList (order_class_functions cfg (roundList cfg auto c) true)),
            c.index⟩ : ClassEntry) = updEntry cfg auto c
          unfold updEntry roundList
          rw [flatten_order_idem]
        rw [List.map_congr_left hKid, List.map_id]
        show update_module
            (update_module module ((find_classes module).map (updEntry cfg auto)))
            ((find_classes module).map (updEntry cfg auto))
          = update_module module ((find_classes module).map (updEntry cfg auto))
        unfold update_module
        rw [List.map_map]
        apply List.map_congr_left
        intro m _
        show replaceCls (lookupClass ((find_classes module).map (updEntry cfg auto)))
            (replaceCls (lookupClass ((find_classes module).map (updEntry cfg auto))) m)
          = replaceCls (lookupClass ((find_classes module).map (updEntry cfg auto))) m
        exact replaceCls_idem _ (lookupClass_updEntry_shape cfg auto module) m
    constructor
    · rw [hm1]
      exact hidem
    · intro hnc
      have hff2 : format_functions_static
          (update_module module ((find_classes module).map (updEntry cfg auto))) auto
          = (find_classes module).map (fun c => (c.name, roundList cfg auto c)) := by
        rw [format_functions_static_eq, hfc2, List.map_map]
        apply List.map_congr_left
        intro c hc
        show ((updEntry cfg auto c).name, stageList auto (updEntry cfg auto c))
          = (c.name, roundList cfg auto c)
        have hstage : stageList auto (updEntry cfg auto c) = roundList cfg auto c := by
          show staticOpt auto (roundList cfg auto c) = roundList cfg auto c
          exact staticOpt_roundList cfg auto c
        rw [hstage]
        rfl
      have hch2 : all_classes_unchanged cfg
          (update_module module ((find_classes module).map (updEntry cfg auto))) auto
            = true := by
        unfold all_classes_unchanged
        rw [hff2]
        have hs2 : sorted_functions cfg
            ((find_classes module).map (fun c => (c.name, roundList cfg auto c)))
            = (find_classes module).map
                (fun c => (c.name, order_class_functions cfg (roundList cfg auto c) true)) := by
          simp [sorted_functions, List.map_map]
        rw [hs2, zip_map_self, all_map_eval]
        rw [List.all_eq_true]
        intro c hc
        show pyEqMembersOrdered (roundList cfg auto c)
          (order_class_functions cfg (roundList cfg auto c) true) = true
        have h1 : order_class_functions cfg (roundList cfg auto c) true
            = (roundList cfg auto c).map (orderOne cfg) := by
          rw [order_class_functions_eq, if_pos rfl]
          congr 1
          show pySorted (memberLe cfg)
              (flattenList (order_class_functions cfg (stageList auto c) true))
            = flattenList (order_class_functions cfg (stageList auto c) true)
          exact pySorted_flatten_order cfg (stageList auto c)
        rw [h1]
        exact pyEq_orderOne_of_nonclass cfg (roundList cfg auto c)
          (roundList_nonclass cfg auto c (hnc c hc))
      rw [hm1, format_csort_unchanged_eq cfg _ out auto hch2]

/-- A module whose single class holds two plain methods in reverse name order. -/
def unsorted_example_module : List Member :=
  [ Member.class_def "A"
    [ Member.function_def "zeta" [] ["self"] "return self.x",
     Member.function_def "alpha" [] ["self"] "return self.x"]]

/-- Witness for the amended C2: on a nested-class-free module the first run reorders the class and the second run reproduces its module and reports code 0. -/
theorem format_csort_idempotent_witness :
    (∀ c ∈ find_classes unsorted_example_module,
      ∀ m ∈ extract_class_components c.node, Member.is_class m = false)
    ∧ (format_csort default_config unsorted_example_module true false).code = 1
    ∧ (format_csort default_config
        (format_csort default_config unsorted_example_module true false).module true
        false).module
      = (format_csort default_config unsorted_example_module true false).module
    ∧ (format_csort default_config
        (format_csort default_config unsorted_example_module true false).module true
        false).code = 0 := by
  have hnc : ∀ c ∈ find_classes unsorted_example_module,
      ∀ m ∈ extract_class_components c.node, Member.is_class m = false := by decide
  have h := format_csort_idempotent default_config unsorted_example_module true false
  exact ⟨hnc, by rfl, h.1, h.2 hnc⟩

end Csort
